import Mathlib

/-
  Verification development for the Aeternus note-taking workspace.

  The definitions below are a shallow embedding of the two core subsystems:
  * the vault reconciliation engine (frontmatter codec, vault merge,
    debounced note saving with rename link-rewrite) from the main
    application module, and
  * the force-directed graph layout engine (physics step, wikilink
    extraction) from the GraphView component.

  Text is modelled as `List Char` (JavaScript strings are sequences of
  code units; all the text the claims touch is plain BMP text, where the
  two agree).  JavaScript numbers are idealized as exact rationals,
  represented as unreduced `Int` numerator/denominator pairs (`Q` below);
  numeric equality is cross-multiplication (`qeq`).  Division by a
  zero-valued rational produces a junk value, and the places where the
  source can divide by zero are tracked explicitly (`springDivisors`).
-/

/-! ### Generic list/text utilities -/

/-- Decidable check that `p` is a leading segment of `s` (models
`String.prototype.startsWith` / anchored regex literal matching). -/
def isPref : List Char → List Char → Bool
  | [], _ => true
  | _ :: _, [] => false
  | c :: p, d :: s => c = d && isPref p s

/-- Decidable substring check: does `pat` occur contiguously in `s`?
(models `String.prototype.includes` / a successful literal regex match). -/
def containsSub (pat : List Char) : List Char → Bool
  | [] => pat.isEmpty
  | c :: t => isPref pat (c :: t) || containsSub pat t

/-- Split `s` at the first occurrence of `pat`, returning the part before
the occurrence and the part after it (models a lazy regex group followed
by the literal `pat`). -/
def splitFirst (pat : List Char) : List Char → Option (List Char × List Char)
  | [] => none
  | c :: t =>
    if isPref pat (c :: t) then some ([], (c :: t).drop pat.length)
    else (splitFirst pat t).map (fun q => (c :: q.1, q.2))

/-- Split on a separator character; models `String.prototype.split(sep)`
for a single-character separator (always returns at least one piece). -/
def splitOnChar (sep : Char) : List Char → List (List Char)
  | [] => [[]]
  | c :: t =>
    if c = sep then [] :: splitOnChar sep t
    else match splitOnChar sep t with
      | [] => [[c]]
      | p :: ps => (c :: p) :: ps

/-- Join pieces with a separator character; models
`Array.prototype.join(sep)`. -/
def joinChar (sep : Char) : List (List Char) → List Char
  | [] => []
  | [p] => p
  | p :: ps => p ++ sep :: joinChar sep ps

/-- JavaScript whitespace characters relevant to `String.prototype.trim`
(the common ASCII ones; exotic Unicode spaces are not modelled). -/
def isWsChar (c : Char) : Bool :=
  c = ' ' || c = '\t' || c = '\n' || c = '\r' || c = '\x0b' || c = '\x0c'

/-- Models `String.prototype.trim`. -/
def trimJS (s : List Char) : List Char :=
  ((s.dropWhile isWsChar).reverse.dropWhile isWsChar).reverse

/-- Replace every (leftmost, non-overlapping) occurrence of `pat` by `rep`,
scanning left to right; models `String.prototype.replace` with a global
regex that matches the literal string `pat`. -/
def replaceAll (pat rep : List Char) : List Char → List Char
  | [] => []
  | c :: t =>
    if h : pat ≠ [] ∧ isPref pat (c :: t) = true then
      rep ++ replaceAll pat rep ((c :: t).drop pat.length)
    else
      c :: replaceAll pat rep t
  termination_by s => s.length
  decreasing_by
  · simp only [List.length_drop, List.length_cons]
    have hp : 0 < pat.length := List.length_pos.mpr h.1
    omega
  · simp only [List.length_cons]
    omega

/-- `GetSubstitution` (ECMA-262) for a replacement *string* against a
regex with no capture groups and no named groups, as in
`content.replace(regex, rep)`: `$$` emits `$`, `$&` emits the matched
substring, `` $` `` (dollar + code unit 96) emits the portion of the
original subject before the match, `$'` emits the portion after it;
every other `$`-sequence (including `$1`…, `$<`, a trailing `$`) is
copied verbatim because the pattern has no groups. -/
def dollarSubst (matched before after : List Char) : List Char → List Char
  | [] => []
  | c :: t =>
    if c = '$' then
      match t with
      | [] => ['$']
      | d :: t' =>
        if d = '$' then '$' :: dollarSubst matched before after t'
        else if d = '&' then matched ++ dollarSubst matched before after t'
        else if d.toNat = 96 then before ++ dollarSubst matched before after t'
        else if d = '\'' then after ++ dollarSubst matched before after t'
        else '$' :: d :: dollarSubst matched before after t'
    else c :: dollarSubst matched before after t

/-- Models `String.prototype.replace` with a global literal-pattern regex
and a replacement *string*: every leftmost non-overlapping occurrence of
`pat` is replaced by the `GetSubstitution` expansion of `rep` at that
position.  `done` accumulates (reversed) the consumed portion of the
original subject, so that `` $` `` and `$'` see the original string's
prefix and suffix around each match. -/
def replaceDollar (pat rep : List Char) : List Char → List Char → List Char
  | _, [] => []
  | done, c :: t =>
    if h : pat ≠ [] ∧ isPref pat (c :: t) = true then
      dollarSubst pat done.reverse ((c :: t).drop pat.length) rep
        ++ replaceDollar pat rep (pat.reverse ++ done) ((c :: t).drop pat.length)
    else
      c :: replaceDollar pat rep (c :: done) t
  termination_by _ s => s.length
  decreasing_by
  · simp only [List.length_drop, List.length_cons]
    have hp : 0 < pat.length := List.length_pos.mpr h.1
    omega
  · simp only [List.length_cons]
    omega

/-! ### Data model (src/types.ts) -/

/-- The persistent note record (interface `Note` in types.ts).
`parentId` is `string | null` and `lastSavedTitle` is an optional string;
both are modelled as `Option String` (`none` = `null`/`undefined`). -/
structure Note where
  id : String
  title : String
  content : String
  createdAt : String
  updatedAt : String
  parentId : Option String
  expanded : Bool
  lastSavedTitle : Option String
  isFavorite : Bool
deriving DecidableEq

/-- JavaScript truthiness of an optional string field (`undefined`, `null`
and the empty string are falsy). -/
def truthyOptStr : Option String → Bool
  | none => false
  | some s => !(s = "")

/-! ### Vault merge (loadFromVault, non-replace branch) -/

/-- One iteration of the merge loop in `loadFromVault`'s non-replace
branch: skip a batch note whose id is already present; otherwise either
adopt it into an unsaved same-titled parentless in-memory note (keeping
that note's id) or append it. -/
def mergeStep (combined : List Note) (n : Note) : List Note :=
  if (combined.findIdx? (fun e => e.id = n.id)).isSome then combined
  else
    match combined.findIdx? (fun e => e.title = n.title && !(truthyOptStr e.parentId)) with
    | some i =>
      match combined.get? i with
      | some e =>
        if !(truthyOptStr e.lastSavedTitle) then
          combined.set i { n with id := e.id }
        else combined ++ [n]
      | none => combined ++ [n]
    | none => combined ++ [n]

/-- Stable insertion (descending by key) used to model the stable
`Array.prototype.sort` with comparator
`(a, b) => time(b.updatedAt) - time(a.updatedAt)`. -/
def insertByKeyDesc (key : Note → ℤ) (x : Note) : List Note → List Note
  | [] => [x]
  | y :: t => if key x < key y then y :: insertByKeyDesc key x t else x :: y :: t

/-- Stable sort, newest `updatedAt` first. -/
def sortByKeyDesc (key : Note → ℤ) : List Note → List Note
  | [] => []
  | x :: t => insertByKeyDesc key x (sortByKeyDesc key t)

/-- The non-replace merge of `loadFromVault`: if the freshly loaded batch
is empty nothing happens; otherwise every batch note is folded into the
in-memory collection with `mergeStep` and the result is re-sorted by
update time (descending).  `ts` interprets an `updatedAt` string as a
timestamp (`new Date(s).getTime()`). -/
def mergeNotes (ts : String → ℤ) (prev news : List Note) : List Note :=
  if news.length > 0 then
    sortByKeyDesc (fun n => ts n.updatedAt) (news.foldl mergeStep prev)
  else prev

/-! ### Exact rational numbers for the physics simulation

JavaScript numbers are idealized as exact rationals.  A `Q` is an
unreduced numerator/denominator pair; all constructors used below keep
denominators positive, and numeric equality is the cross-multiplication
relation `qeq`.  Division by a zero-valued rational yields a junk value
(denominator 0); the one place the GraphView source can actually divide
by zero is tracked separately (see `springDivisors`). -/

structure Q where
  num : ℤ
  den : ℤ
deriving DecidableEq

def qofInt (n : ℤ) : Q := ⟨n, 1⟩

instance : OfNat Q n := ⟨qofInt n⟩

def qadd (a b : Q) : Q := ⟨a.num * b.den + b.num * a.den, a.den * b.den⟩

def qsub (a b : Q) : Q := ⟨a.num * b.den - b.num * a.den, a.den * b.den⟩

def qmul (a b : Q) : Q := ⟨a.num * b.num, a.den * b.den⟩

def qdiv (a b : Q) : Q := ⟨a.num * b.den, a.den * b.num⟩

/-- Numeric equality of two rationals (cross multiplication). -/
def qeq (a b : Q) : Bool := a.num * b.den = b.num * a.den

/-- Numeric strict order; correct whenever both denominators are
positive, which holds for every value the modelled code computes from
integer-denominator inputs outside the flagged division-by-zero case. -/
def qlt (a b : Q) : Bool := a.num * b.den < b.num * a.den

/-- Fuel-driven Newton iteration for integer square roots (kept
structural so that concrete evaluation happens in the kernel). -/
def isqrtAux : ℕ → ℕ → ℕ → ℕ
  | 0, _, g => g
  | f + 1, n, g =>
    let g' := (g + n / g) / 2
    if g ≤ g' then g else isqrtAux f n g'

/-- Integer (floor) square root. -/
def isqrt (n : ℕ) : ℕ := if n ≤ 1 then n else isqrtAux 100 n (n / 2)

/-- Models `Math.sqrt` on a rational: exact whenever numerator and
denominator are perfect squares (the only case the theorems below
evaluate it on), floor-like otherwise; nonpositive input yields the junk
interpretation of the corresponding JavaScript `NaN`. -/
def qsqrt (a : Q) : Q := ⟨(isqrt a.num.toNat : ℤ), (isqrt a.den.toNat : ℤ)⟩

/-! ### Force layout engine (src/components/GraphView.tsx) -/

/-- Ephemeral layout node (interface `GraphNode` in types.ts). -/
structure GNode where
  id : String
  title : String
  x : Q
  y : Q
  vx : Q
  vy : Q
deriving DecidableEq

/-- Directed derived link (interface `GraphLink` in types.ts). -/
structure GLink where
  source : String
  target : String
deriving DecidableEq

/-- Physics constants of GraphView. -/
def REPULSION : Q := qofInt 1500

def SPRING_LENGTH : Q := qofInt 150

/-- `SPRING_STRENGTH = 0.05`. -/
def SPRING_STRENGTH : Q := ⟨5, 100⟩

/-- `DAMPING = 0.85`. -/
def DAMPING : Q := ⟨85, 100⟩

/-- `CENTER_FORCE = 0.005`. -/
def CENTER_FORCE : Q := ⟨5, 1000⟩

/-- The repulsion contribution of `other` on `node`:
`(dx, dy, clamped distSq, dist)` as computed by the repulsion loop
(`distSq = dx*dx + dy*dy || 1`, `dist = Math.sqrt(distSq)`). -/
def repTerm (node other : GNode) : Q × Q × Q × Q :=
  let dx := qsub node.x other.x
  let dy := qsub node.y other.y
  let d2 := qadd (qmul dx dx) (qmul dy dy)
  let d2' := if d2.num = 0 then qofInt 1 else d2
  (dx, dy, d2', qsqrt d2')

/-- The spring data for `node` contributed by link `l`, when `l` touches
`node` and its other endpoint resolves in `arr`:
`(dx, dy, dist)` with `dist = Math.sqrt(dx*dx + dy*dy)` — note the
source applies no minimum-distance clamp here. -/
def springTerm (arr : List GNode) (node : GNode) (l : GLink) : Option (Q × Q × Q) :=
  let isSource : Bool := l.source = node.id
  let isTarget : Bool := l.target = node.id
  if isSource || isTarget then
    let otherId := if isSource then l.target else l.source
    match arr.find? (fun n => n.id = otherId) with
    | some other =>
      let dx := qsub other.x node.x
      let dy := qsub other.y node.y
      some (dx, dy, qsqrt (qadd (qmul dx dx) (qmul dy dy)))
    | none => none
  else none

/-- The per-node body of the physics step in GraphView's `animate`:
accumulate repulsion, spring and centering forces computed from `arr`,
then apply damping, integrate, and apply the soft wall bounce. -/
def updNode (w h : Q) (links : List GLink) (arr : List GNode) (node : GNode) : GNode :=
  let rep := (arr.filter (fun o => !(o.id = node.id : Bool))).foldl
    (fun (f : Q × Q) o =>
      let t := repTerm node o
      let force := qdiv REPULSION t.2.2.1
      (qadd f.1 (qmul (qdiv t.1 t.2.2.2) force),
       qadd f.2 (qmul (qdiv t.2.1 t.2.2.2) force)))
    (qofInt 0, qofInt 0)
  let spr := (links.filterMap (springTerm arr node)).foldl
    (fun (f : Q × Q) t =>
      let force := qmul (qsub t.2.2 SPRING_LENGTH) SPRING_STRENGTH
      (qadd f.1 (qmul (qdiv t.1 t.2.2) force),
       qadd f.2 (qmul (qdiv t.2.1 t.2.2) force)))
    rep
  let cx := qdiv w (qofInt 2)
  let cy := qdiv h (qofInt 2)
  let fx := qadd spr.1 (qmul (qsub cx node.x) CENTER_FORCE)
  let fy := qadd spr.2 (qmul (qsub cy node.y) CENTER_FORCE)
  let vx := qmul (qadd node.vx fx) DAMPING
  let vy := qmul (qadd node.vy fy) DAMPING
  let x := qadd node.x vx
  let y := qadd node.y vy
  let vx := if qlt x (qofInt 50) then qadd vx (qofInt 1) else vx
  let vx := if qlt (qsub w (qofInt 50)) x then qsub vx (qofInt 1) else vx
  let vy := if qlt y (qofInt 50) then qadd vy (qofInt 1) else vy
  let vy := if qlt (qsub h (qofInt 50)) y then qsub vy (qofInt 1) else vy
  { node with x := x, y := y, vx := vx, vy := vy }

/-- Sequential in-place iteration of the physics step, as the source's
`nodes.forEach` performs it: the node at index `i` is updated using the
array in which nodes at indices `< i` have already been updated. -/
def seqGo (w h : Q) (links : List GLink) : ℕ → ℕ → List GNode → List GNode
  | 0, _, arr => arr
  | k + 1, i, arr =>
    match arr.get? i with
    | some node => seqGo w h links k (i + 1) (arr.set i (updNode w h links arr node))
    | none => arr

/-- One physics step exactly as implemented (sequential, mutating). -/
def stepSeq (w h : Q) (links : List GLink) (arr : List GNode) : List GNode :=
  seqGo w h links arr.length 0 arr

/-- The synchronous vector update described by the specification: every
force is computed from the pre-step array. -/
def stepSync (w h : Q) (links : List GLink) (arr : List GNode) : List GNode :=
  arr.map (updNode w h links arr)

/-- The divisors used by the repulsion term for `node` (the clamped
squared distance, divisor of `force`, and its square root, divisor of
the direction components). -/
def repulsionDivisors (arr : List GNode) (node : GNode) : List Q :=
  (arr.filter (fun o => !(o.id = node.id : Bool))).foldr
    (fun o acc => (repTerm node o).2.2.1 :: (repTerm node o).2.2.2 :: acc) []

/-- The divisors used by the spring (attraction) term for `node`: for
each touching resolvable link, the unguarded endpoint distance. -/
def springDivisors (arr : List GNode) (node : GNode) (links : List GLink) : List Q :=
  (links.filterMap (springTerm arr node)).map (fun t => t.2.2)

/-! ### Wikilink extraction (GraphView, link derivation effect) -/

/-- Attempt to read a lazy regex group after an opening `[[`: collect
characters up to the first `]]`; `.` in the source regex `/\[\[(.*?)\]\]/g`
does not match a newline, so a newline (or the end of input) aborts the
attempt.  Returns the group and the input remaining after the closing
`]]`. -/
def grabGroup : List Char → Option (List Char × List Char)
  | ']' :: ']' :: rest => some ([], rest)
  | '\n' :: _ => none
  | [] => none
  | c :: rest => (grabGroup rest).map (fun g => (c :: g.1, g.2))

/-- Fuel-driven scanner for `/\[\[(.*?)\]\]/g`: at `[[` try to complete a
match; on success continue after it (`lastIndex`), on failure resume one
character later, exactly as the regex engine does.  Fuel is given as at
least `length + 1`, which every recursive call respects, so the fuel
never actually runs out. -/
def findMarkersF : ℕ → List Char → List (List Char)
  | 0, _ => []
  | f + 1, s =>
    match s with
    | '[' :: '[' :: rest =>
      match grabGroup rest with
      | some g => g.1 :: findMarkersF f g.2
      | none => findMarkersF f ('[' :: rest)
    | _ :: rest => findMarkersF f rest
    | [] => []

/-- All wikilink marker texts occurring in `s`, in order. -/
def findMarkers (s : List Char) : List (List Char) :=
  findMarkersF (s.length + 1) s

/-- Models `String.prototype.toLowerCase` for the character material the
source handles: ASCII letters and the Latin-1 accented range (the further
Unicode case mappings are not modelled; no claim exercises them). -/
def lowerChar (c : Char) : Char :=
  if (65 ≤ c.toNat && c.toNat ≤ 90)
      || (192 ≤ c.toNat && c.toNat ≤ 222 && !(c.toNat = 215 : Bool)) then
    Char.ofNat (c.toNat + 32)
  else c

/-- Lower-case a string character-wise. -/
def lowerL (l : List Char) : List Char := l.map lowerChar

/-- Link derivation from GraphView: for every marker `[[X]]` in a note's
body, find the first note whose title equals `X` case-insensitively and
emit a directed link unless that note is the source itself. -/
def extractLinks (notes : List Note) : List GLink :=
  notes.flatMap (fun s =>
    (findMarkers s.content.toList).filterMap (fun X =>
      match notes.find? (fun n => lowerL n.title.toList = lowerL X) with
      | some t => if t.id ≠ s.id then some ⟨s.id, t.id⟩ else none
      | none => none))

/-! ### Frontmatter codec -/

/-- A parsed ad hoc YAML value: the parser recognizes the literals
`true`/`false`/`null` and keeps everything else as a string. -/
inductive YamlVal where
  | str : List Char → YamlVal
  | bool : Bool → YamlVal
  | null : YamlVal
deriving DecidableEq

/-- Process one line of the frontmatter block
(`const [key, ...rest] = line.split(':')`; the rest array is always
truthy, so the guard reduces to the key being non-empty).  Assignments
are collected most-recent-first. -/
def yamlAssign (acc : List (List Char × YamlVal)) (line : List Char) :
    List (List Char × YamlVal) :=
  match splitOnChar ':' line with
  | [] => acc
  | key :: rest =>
    if key = [] then acc
    else
      let val := trimJS (joinChar ':' rest)
      let v : YamlVal :=
        if val = "true".toList then .bool true
        else if val = "false".toList then .bool false
        else if !(val = "null".toList : Bool) then .str val
        else .null
      (trimJS key, v) :: acc

/-- Latest assignment for a key, if any (object-property semantics). -/
def metaLookup (m : List (List Char × YamlVal)) (k : List Char) : Option YamlVal :=
  (m.find? (fun p => p.1 = k)).map (fun p => p.2)

/-- The `meta` record returned by `parseFrontmatter`
(`Partial<Note>`-shaped: every field may be absent). -/
structure FrontMeta where
  id : Option YamlVal
  title : Option YamlVal
  createdAt : Option YamlVal
  updatedAt : Option YamlVal
  parentId : Option YamlVal
  isFavorite : Option YamlVal
deriving DecidableEq

/-- The empty metadata record. -/
def emptyMeta : FrontMeta := ⟨none, none, none, none, none, none⟩

/-- `parseFrontmatter`: match `/^---\n([\s\S]*?)\n---\n([\s\S]*)$/` (the
lazy group means the block ends at the first `\n---\n`), parse each line
of the block as `key: value`, and return the remainder verbatim as the
body; if the shape does not match, the whole text is the body. -/
def parseFrontmatter (text : List Char) : FrontMeta × List Char :=
  if isPref "---\n".toList text then
    match splitFirst "\n---\n".toList (text.drop 4) with
    | some q =>
      let m := (splitOnChar '\n' q.1).foldl yamlAssign []
      ({ id := metaLookup m "id".toList,
         title := metaLookup m "title".toList,
         createdAt := metaLookup m "created".toList,
         updatedAt := metaLookup m "updated".toList,
         parentId := metaLookup m "parentId".toList,
         isFavorite := metaLookup m "isFavorite".toList }, q.2)
    | none => (emptyMeta, text)
  else (emptyMeta, text)

/-- The serialized form of `parentId` (`note.parentId || 'null'`: both a
missing parent and an empty string are falsy and serialize as `null`). -/
def parentLit : Option String → List Char
  | none => "null".toList
  | some p => if p = "" then "null".toList else p.toList

/-- The serialized form of `isFavorite` (`note.isFavorite || false`). -/
def favLit (b : Bool) : List Char :=
  if b then "true".toList else "false".toList

/-- The six `key: value` lines between the two `---` delimiters, in
template order. -/
def yamlOf (n : Note) : List Char :=
  "id: ".toList ++ n.id.toList ++ '\n' ::
  ("title: ".toList ++ n.title.toList ++ '\n' ::
  ("created: ".toList ++ n.createdAt.toList ++ '\n' ::
  ("updated: ".toList ++ n.updatedAt.toList ++ '\n' ::
  ("parentId: ".toList ++ parentLit n.parentId ++ '\n' ::
  ("isFavorite: ".toList ++ favLit n.isFavorite)))))

/-- `stringifyFrontmatter`: the delimited metadata block followed by the
body verbatim. -/
def stringifyFrontmatter (n : Note) : List Char :=
  "---\n".toList ++ yamlOf n ++ "\n---\n".toList ++ n.content.toList

/-- Hygiene of a metadata field value under the ad hoc YAML codec: the
value must not break the line structure (no newline), must survive the
parser's `trim`, and must not collide with the coerced literals
`true`/`false`/`null`. -/
def fieldOk (v : String) : Prop :=
  '\n' ∉ v.toList ∧ trimJS v.toList = v.toList ∧
  ¬ v.toList = "true".toList ∧ ¬ v.toList = "false".toList ∧ ¬ v.toList = "null".toList

instance (v : String) : Decidable (fieldOk v) := by
  unfold fieldOk; infer_instance

/-! ### Title-derived filenames (`getFilename`) -/

/-- Does the character match the keep-class of
`/[^a-z0-9À-ɏḀ-ỿ]/gi` (i.e. is it left unreplaced)?
The `i` flag makes the ASCII letter range case-insensitive. -/
def keepChar (c : Char) : Bool :=
  (97 ≤ c.toNat && c.toNat ≤ 122) || (65 ≤ c.toNat && c.toNat ≤ 90)
  || (48 ≤ c.toNat && c.toNat ≤ 57)
  || (192 ≤ c.toNat && c.toNat ≤ 591) || (7680 ≤ c.toNat && c.toNat ≤ 7935)

/-- `getFilename`: every character outside the keep-class is replaced by
an underscore (one underscore per character), the result is lower-cased,
an empty result falls back to `untitled`, and `.md` is appended. -/
def getFilename (title : String) : List Char :=
  let slug := (title.toList.map (fun c => if keepChar c then c else '_')).map lowerChar
  (if slug = [] then "untitled".toList else slug) ++ ".md".toList

/-- Modelled from the spec's words for the filename contract (C9): the
title is lower-cased and every *maximal run* of characters outside the
keep-class is replaced by a single separator.  Compare with
`getFilename`, which replaces every such character individually.  The
`inRun` flag records whether the previous character was part of a
replaced run. -/
def collapseGo (inRun : Bool) : List Char → List Char
  | [] => []
  | c :: t =>
    if keepChar c then c :: collapseGo false t
    else if inRun then collapseGo true t
    else '_' :: collapseGo true t

/-- Modelled from the spec's words for C9: run-collapsing slug. -/
def runCollapsedFilename (title : String) : List Char :=
  let slug := collapseGo false (title.toList.map lowerChar)
  (if slug = [] then "untitled".toList else slug) ++ ".md".toList

/-- The per-character variant stated by the amended claim: lower-case the
title, then replace each character outside the keep-class by one
underscore. -/
def perCharFilename (title : String) : List Char :=
  let slug := (title.toList.map lowerChar).map (fun c => if keepChar c then c else '_')
  (if slug = [] then "untitled".toList else slug) ++ ".md".toList

/-! ### Note saving and rename handling (`updateNote`)

The surrounding component state is modelled explicitly: the in-memory
note collection, the set of live debounce timers (each `setTimeout` call
returns a fresh handle `tid`; `clearTimeout` deactivates exactly the
designated handle), the `saveTimeoutRef` map from note id to the most
recently stored handle, and the log of immediate `writeFileToDisk`
requests.  Asynchronous completions (timer firings, the writes
themselves) are not part of a single `updateNote` step. -/

/-- A live `setTimeout(() => writeFileToDisk(payload), 1000)` timer. -/
structure Timer where
  tid : ℕ
  noteId : String
  payload : Note
deriving DecidableEq

/-- The component state visible to `updateNote`. -/
structure AppState where
  notes : List Note
  timers : List Timer
  ref : List (String × ℕ)
  nextT : ℕ
  writes : List Note
deriving DecidableEq

/-- `saveTimeoutRef.current[i]`. -/
def refLookup (r : List (String × ℕ)) (i : String) : Option ℕ :=
  (r.find? (fun p => p.1 = i)).map (fun p => p.2)

/-- `saveTimeoutRef.current[i] = t` (object property update). -/
def refSet (r : List (String × ℕ)) (i : String) (t : ℕ) : List (String × ℕ) :=
  match r with
  | [] => [(i, t)]
  | p :: rest => if p.1 = i then (i, t) :: rest else p :: refSet rest i t

/-- `if (saveTimeoutRef.current[i]) clearTimeout(saveTimeoutRef.current[i])`:
deactivate the timer whose handle is currently recorded for `i` (the ref
entry itself is left in place, pointing at a dead handle). -/
def clearFor (s : AppState) (i : String) : AppState :=
  match refLookup s.ref i with
  | some t => { s with timers := s.timers.filter (fun tm => !(tm.tid = t : Bool)) }
  | none => s

/-- `saveTimeoutRef.current[i] = setTimeout(() => writeFileToDisk(p), 1000)`. -/
def schedule (s : AppState) (i : String) (p : Note) : AppState :=
  { s with
    timers := s.timers ++ [⟨s.nextT, i, p⟩],
    ref := refSet s.ref i s.nextT,
    nextT := s.nextT + 1 }

/-- The `Partial<Note>` argument of `updateNote`, restricted to the
fields the claims exercise. -/
structure NoteUpdates where
  title : Option String
  content : Option String
  isFavorite : Option Bool
deriving DecidableEq

/-- `{ ...noteToUpdate, ...updates, updatedAt: getISODate() }`. -/
def applyUpdates (n : Note) (u : NoteUpdates) (now : String) : Note :=
  { n with
    title := u.title.getD n.title,
    content := u.content.getD n.content,
    isFavorite := u.isFavorite.getD n.isFavorite,
    updatedAt := now }

/-- The link-refactoring `prev.map(...)` of `updateNote`, threading the
timer state left to right: the updated note replaces its old version;
when `doIt` holds (title changed, both titles truthy) any other note
containing the literal marker `pat` (the old title is regex-escaped in
the source, so matching is literal) has every occurrence replaced by the
`GetSubstitution` expansion of the replacement string `rep` — the new
title is *not* escaped, so `$`-sequences in it are substituted — gets a
fresh debounced write (cancelling its previous one) when a vault is
connected, and is stamped with the current date. -/
def refactorGo (vault : Bool) (now : String) (doIt : Bool) (pat rep : List Char)
    (id : String) (updatedNote : Note) :
    List Note → AppState → (List Note × AppState)
  | [], s => ([], s)
  | n :: rest, s =>
    if n.id = id then
      let r := refactorGo vault now doIt pat rep id updatedNote rest s
      (updatedNote :: r.1, r.2)
    else if doIt && containsSub pat n.content.toList then
      let n' := { n with
        content := String.mk (replaceDollar pat rep [] n.content.toList),
        updatedAt := now }
      let s' := if vault then schedule (clearFor s n.id) n.id n' else s
      let r := refactorGo vault now doIt pat rep id updatedNote rest s'
      (n' :: r.1, r.2)
    else
      let r := refactorGo vault now doIt pat rep id updatedNote rest s
      (n :: r.1, r.2)

/-- `updateNote(id, updates, forceSave)`: cancel the pending write for
`id`, update the note, decide between an immediate write (forced or
metadata change), waiting for blur (bare title change) and a debounced
write (content change), then apply the link-refactoring pass. -/
def updateNote (vault : Bool) (now : String) (id : String) (u : NoteUpdates)
    (forceSave : Bool) (s : AppState) : AppState :=
  let s1 := clearFor s id
  match s1.notes.find? (fun n => n.id = id) with
  | none => s1
  | some old =>
    let updatedNote := applyUpdates old u now
    let titleChanged := u.title.isSome && !(u.title = some old.title : Bool)
    let contentChanged := u.content.isSome && !(u.content = some old.content : Bool)
    let metaChanged := u.isFavorite.isSome && !(u.isFavorite = some old.isFavorite : Bool)
    let s2 :=
      if vault then
        if forceSave || metaChanged then { s1 with writes := s1.writes ++ [updatedNote] }
        else if titleChanged then s1
        else if contentChanged then schedule s1 id updatedNote
        else s1
      else s1
    let doIt := titleChanged && !(old.title = "" : Bool) && !(updatedNote.title = "" : Bool)
    let pat := "[[".toList ++ old.title.toList ++ "]]".toList
    let rep := "[[".toList ++ updatedNote.title.toList ++ "]]".toList
    let r := refactorGo vault now doIt pat rep id updatedNote s1.notes s2
    { r.2 with notes := r.1 }

/-- Timer-state well-formedness: every recorded handle is in the past of
the handle counter, live handles are distinct, and every live timer is
the one its note id's ref entry designates (hence: at most one live
timer per note id). -/
def WFApp (s : AppState) : Prop :=
  (∀ p ∈ s.ref, p.2 < s.nextT) ∧
  (∀ tm ∈ s.timers, tm.tid < s.nextT) ∧
  (s.timers.map Timer.tid).Nodup ∧
  (∀ tm ∈ s.timers, refLookup s.ref tm.noteId = some tm.tid) ∧
  (∀ p ∈ s.ref, ∀ tm ∈ s.timers, tm.tid = p.2 → tm.noteId = p.1)

instance (s : AppState) : Decidable (WFApp s) := by
  unfold WFApp; infer_instance

/-- The note ids of a collection are pairwise distinct. -/
def idsNodup (l : List Note) : Prop := (l.map Note.id).Nodup

instance (l : List Note) : Decidable (idsNodup l) := by
  unfold idsNodup; infer_instance

/-- The live timers scheduled for note id `i`. -/
def timersFor (s : AppState) (i : String) : List Timer :=
  s.timers.filter (fun tm => tm.noteId = i)

/-! ### Concrete scenario data used by witnesses and counterexamples -/

/-- Scenario shorthand: a note with the given id, title and body and
neutral remaining fields. -/
def mkNote (id title content : String) : Note :=
  ⟨id, title, content, "", "", none, true, none, false⟩

/-- An in-memory note that was never flushed to disk (no
`lastSavedTitle`). -/
def memNote : Note := mkNote "m" "T" ""

/-- A vault-loaded note with the same title: `loadFromVault` stamps
loaded notes with `lastSavedTitle = title`. -/
def vaultNote : Note := { mkNote "f" "T" "body" with lastSavedTitle := some "T" }

/-- A trivial timestamp interpretation (all `updatedAt` strings equal);
with it the stable sort keeps the collection order. -/
def tsZero : String → ℤ := fun _ => 0

/-- An in-memory note that has been flushed (truthy `lastSavedTitle`). -/
def savedMemNote : Note := { mkNote "p" "P" "" with lastSavedTitle := some "P" }

/-- A vault-loaded note with a fresh id and title. -/
def savedVaultNote : Note := { mkNote "q" "Q" "hello" with lastSavedTitle := some "Q" }

/-- Two stationary layout nodes one unit apart on the horizontal axis
through the viewport centre. -/
def nodeA : GNode := ⟨"a", "A", qofInt 100, qofInt 300, qofInt 0, qofInt 0⟩

/-- See `nodeA`. -/
def nodeB : GNode := ⟨"b", "B", qofInt 101, qofInt 300, qofInt 0, qofInt 0⟩

/-- The horizontal velocity that makes `nodeBmoving` land exactly on the
post-step position of `nodeA` within one sequential step
(`-(50989/40)/0.85 - 1500/(50989/40)^2 - 0.005*(400-101)`). -/
def velB : Q := qsub (qsub ⟨-50989, 34⟩ ⟨2400000, 2599878121⟩) ⟨299, 200⟩

/-- `nodeB` with initial velocity `velB`. -/
def nodeBmoving : GNode := ⟨"b", "B", qofInt 101, qofInt 300, velB, qofInt 0⟩

/-- Two linked nodes at exactly the same position. -/
def coNodeA : GNode := ⟨"a", "A", qofInt 100, qofInt 100, qofInt 0, qofInt 0⟩

/-- See `coNodeA`. -/
def coNodeB : GNode := ⟨"b", "B", qofInt 100, qofInt 100, qofInt 0, qofInt 0⟩

/-- The spec's link-extraction example collection. -/
def alphaNote : Note := mkNote "1" "Alpha" "link to [[Beta]]"

/-- See `alphaNote`. -/
def betaNote : Note := mkNote "2" "Beta" ""

/-- A collection with two case-insensitively equal titles: the marker
`[[b]]` in note `1` matches the titles of both notes `2` and `3`. -/
def dupSrc : Note := mkNote "1" "A" "see [[b]]"

/-- See `dupSrc`. -/
def dupB1 : Note := mkNote "2" "B" ""

/-- See `dupSrc`. -/
def dupB2 : Note := mkNote "3" "B" ""

/-- A note whose title is the literal string `true`: its title line
round-trips through the codec as a boolean, not a string. -/
def boolTitleNote : Note :=
  ⟨"i", "true", "x", "2024-01-01T00:00:00.000Z", "2024-01-02T00:00:00.000Z", none, true, none, false⟩

/-- A well-behaved note (hygienic metadata fields, multi-line body). -/
def tameNote : Note :=
  ⟨"i1", "Alpha", "x\nsecond line", "2024-01-01T00:00:00.000Z",
   "2024-01-02T00:00:00.000Z", some "p0", true, some "Alpha", true⟩

/-- The note being renamed in the rename scenarios. -/
def fooNote : Note := mkNote "1" "Foo" ""

/-- A note whose body references `fooNote` by exact title. -/
def linkNote : Note := mkNote "2" "Other" "see [[Foo]]"

/-- A note whose body references `fooNote` only up to letter case. -/
def caseNote : Note := mkNote "2" "Other" "see [[foo]]"

/-- Quiescent component state holding the given notes: no live timers,
no recorded handles, no writes. -/
def quiescent (l : List Note) : AppState := ⟨l, [], [], 0, []⟩

/-- The literal wikilink marker `[[Foo]]` as a character list. -/
def fooPat : List Char := ['[', '[', 'F', 'o', 'o', ']', ']']

/-- The literal wikilink marker `[[Bar]]` as a character list. -/
def barRep : List Char := ['[', '[', 'B', 'a', 'r', ']', ']']

/-! ### Lemmas about the physics step -/

theorem seqGo_get?_zero (w h : Q) (links : List GLink) :
    ∀ (k i : ℕ) (arr : List GNode), 1 ≤ i →
      (seqGo w h links k i arr).get? 0 = arr.get? 0 := by
  intro k
  induction k with
  | zero => intro i arr _; rfl
  | succ k ih =>
    intro i arr hi
    simp only [seqGo]
    cases harr : arr.get? i with
    | none => rfl
    | some node =>
      rw [ih (i + 1) _ (by omega)]
      simp only [List.get?_eq_getElem?]
      exact List.getElem?_set_ne (by omega)

/-- C3 (amended): the physics step as implemented updates nodes
sequentially, so it is not in general equal to the synchronous vector
update; it does agree with the synchronous update on the first node of
the iteration (whose forces are computed entirely from pre-step state),
and hence on single-node sets. -/
theorem stepSeq_first_node_agrees (w h : Q) (links : List GLink) (arr : List GNode) :
    (stepSeq w h links arr).get? 0 = (stepSync w h links arr).get? 0 := by
  cases arr with
  | nil => rfl
  | cons a t =>
    show (seqGo w h links (a :: t).length 0 (a :: t)).get? 0 = _
    simp only [List.length_cons, seqGo, List.get?_cons_zero]
    rw [seqGo_get?_zero w h links t.length 1 _ (le_refl 1)]
    simp only [List.set_cons_zero, List.get?_cons_zero, stepSync, List.map_cons,
      List.get?_cons_zero]

/-- C3 (counterexample): for the two-node collection
`[nodeA, nodeB]` (distinct positions, zero velocities, no links,
800×600 viewport) the sequential step and the synchronous step disagree:
the second node ends at numerically different x positions, because the
sequential iteration lets it see the already-moved first node. -/
theorem stepSeq_ne_stepSync_cex :
    qeq (((stepSeq (qofInt 800) (qofInt 600) [] [nodeA, nodeB]).getD 1 nodeA).x)
        (((stepSync (qofInt 800) (qofInt 600) [] [nodeA, nodeB]).getD 1 nodeA).x)
      = false := by decide

/-- C5: at coincident linked endpoints the attraction (spring) term of
the physics step divides by the endpoint distance 0 — the source
computes `dist = Math.sqrt(dx*dx + dy*dy)` without the minimum-distance
clamp used by the repulsion term, and `(dx/dist)*force` is `0/0 = NaN`
in JavaScript.  Both endpoints of the link are affected. -/
theorem springDivisor_zero_at_coincident :
    qeq coNodeA.x coNodeB.x = true ∧ qeq coNodeA.y coNodeB.y = true ∧
    (qofInt 0) ∈ springDivisors [coNodeA, coNodeB] coNodeA [⟨"a", "b"⟩] ∧
    (qofInt 0) ∈ springDivisors [coNodeA, coNodeB] coNodeB [⟨"a", "b"⟩] := by
  decide

theorem isqrtAux_pos : ∀ (f n g : ℕ), 1 ≤ g → g ≤ n → 1 ≤ isqrtAux f n g := by
  intro f
  induction f with
  | zero => intro n g hg _; simpa [isqrtAux] using hg
  | succ f ih =>
    intro n g hg hgn
    simp only [isqrtAux]
    by_cases hc : g ≤ (g + n / g) / 2
    · simpa [hc] using hg
    · simp only [hc, if_false]
      have hdiv : 1 ≤ n / g := (Nat.one_le_div_iff (by omega)).mpr hgn
      exact ih n _ (by omega) (by omega)

theorem isqrt_pos {n : ℕ} (h : 1 ≤ n) : 1 ≤ isqrt n := by
  unfold isqrt
  by_cases h1 : n ≤ 1
  · simpa [h1] using h
  · simp only [h1, if_false]
    exact isqrtAux_pos 100 n (n / 2) (by omega) (Nat.div_le_self n 2)

theorem qsq_add_qsq_num_nonneg (dx dy : Q) :
    0 ≤ (qadd (qmul dx dx) (qmul dy dy)).num := by
  simp only [qadd, qmul]
  nlinarith [mul_self_nonneg (dx.num * dy.den), mul_self_nonneg (dy.num * dx.den)]

theorem repTerm_divisors_num_pos (node o : GNode) :
    1 ≤ ((repTerm node o).2.2.1).num ∧ 1 ≤ ((repTerm node o).2.2.2).num := by
  have h0 := qsq_add_qsq_num_nonneg (qsub node.x o.x) (qsub node.y o.y)
  simp only [repTerm]
  by_cases hz :
      (qadd (qmul (qsub node.x o.x) (qsub node.x o.x))
        (qmul (qsub node.y o.y) (qsub node.y o.y))).num = 0
  · simp only [hz, if_pos rfl, qofInt, qsqrt]
    exact ⟨le_refl 1, by norm_num [isqrt]⟩
  · simp only [if_neg hz, qsqrt]
    refine ⟨by omega, ?_⟩
    have h1 : 1 ≤ (qadd (qmul (qsub node.x o.x) (qsub node.x o.x))
        (qmul (qsub node.y o.y) (qsub node.y o.y))).num := by omega
    have h2 : 1 ≤ (qadd (qmul (qsub node.x o.x) (qsub node.x o.x))
        (qmul (qsub node.y o.y) (qsub node.y o.y))).num.toNat := by omega
    exact_mod_cast isqrt_pos h2

theorem foldr_two_cons_mem {α β : Type} (f g : α → β) (d : β) :
    ∀ (l : List α) (acc : List β), d ∈ l.foldr (fun o r => f o :: g o :: r) acc →
      (∃ o ∈ l, d = f o ∨ d = g o) ∨ d ∈ acc := by
  intro l
  induction l with
  | nil => intro acc hd; exact Or.inr hd
  | cons x t ih =>
    intro acc hd
    simp only [List.foldr_cons, List.mem_cons] at hd
    rcases hd with h | h | h
    · exact Or.inl ⟨x, List.mem_cons_self x t, Or.inl h⟩
    · exact Or.inl ⟨x, List.mem_cons_self x t, Or.inr h⟩
    · rcases ih acc h with ⟨o, ho, h'⟩ | h'
      · exact Or.inl ⟨o, List.mem_cons_of_mem x ho, h'⟩
      · exact Or.inr h'

/-- C7 (amended): the clamping of the effective squared distance to a
minimum of 1 guarantees that the repulsion term never divides by a
numerically zero quantity — both of its divisors (the clamped squared
distance and its square root) are nonzero for every node pair, including
coincident ones — but it does not make pairwise-distinct positions
invariant: a step can map two distinct nodes onto the same position (see
the counterexample). -/
theorem repulsionDivisors_ne_zero (arr : List GNode) (node : GNode) (d : Q)
    (hd : d ∈ repulsionDivisors arr node) : qeq d (qofInt 0) = false := by
  unfold repulsionDivisors at hd
  have h := foldr_two_cons_mem (fun o => (repTerm node o).2.2.1)
    (fun o => (repTerm node o).2.2.2) d _ [] hd
  have hnum : 1 ≤ d.num := by
    rcases h with ⟨o, -, h' | h'⟩ | h'
    · exact h' ▸ (repTerm_divisors_num_pos node o).1
    · exact h' ▸ (repTerm_divisors_num_pos node o).2
    · cases h'
  simp only [qeq, qofInt, mul_one, zero_mul, decide_eq_false_iff_not]
  omega

theorem repulsionDivisors_ne_zero_witness :
    (qofInt 1) ∈ repulsionDivisors [coNodeA, coNodeB] coNodeA ∧
    qeq (qofInt 1) (qofInt 0) = false :=
  ⟨by decide, repulsionDivisors_ne_zero [coNodeA, coNodeB] coNodeA (qofInt 1) (by decide)⟩

/-- C7 (counterexample): a two-node set with pairwise-distinct initial
positions, the source's (positive) repulsion constant and an empty link
set in which one simulation step puts both nodes at exactly the same
position: the second node's initial velocity carries it precisely onto
the first node's post-step position, which the sequential update exposes
to it. -/
theorem step_coincidence_cex :
    qeq nodeA.x nodeBmoving.x = false ∧
    qeq (((stepSeq (qofInt 800) (qofInt 600) [] [nodeA, nodeBmoving]).getD 0 nodeA).x)
        (((stepSeq (qofInt 800) (qofInt 600) [] [nodeA, nodeBmoving]).getD 1 nodeA).x) = true ∧
    qeq (((stepSeq (qofInt 800) (qofInt 600) [] [nodeA, nodeBmoving]).getD 0 nodeA).y)
        (((stepSeq (qofInt 800) (qofInt 600) [] [nodeA, nodeBmoving]).getD 1 nodeA).y) = true := by
  decide

/-! ### Lemmas about `getFilename` -/

theorem char_toNat_ofNat_small (n : ℕ) (h : n < 55296) : (Char.ofNat n).toNat = n := by
  rw [Char.ofNat, dif_pos (Or.inl (by exact_mod_cast h))]
  simp [Char.ofNatAux, Char.toNat, UInt32.toNat, BitVec.toNat_ofNatLt]

theorem keep_lowerChar {c : Char} (h : keepChar c = true) : keepChar (lowerChar c) = true := by
  unfold keepChar at h ⊢
  unfold lowerChar
  by_cases h1 : ((65 ≤ c.toNat && c.toNat ≤ 90)
      || (192 ≤ c.toNat && c.toNat ≤ 222 && !(c.toNat = 215 : Bool))) = true
  · rw [if_pos h1]
    have hv : (Char.ofNat (c.toNat + 32)).toNat = c.toNat + 32 := by
      apply char_toNat_ofNat_small
      simp only [Bool.or_eq_true, Bool.and_eq_true, decide_eq_true_eq] at h1
      omega
    simp only [Bool.or_eq_true, Bool.and_eq_true, decide_eq_true_eq, hv] at h1 ⊢
    omega
  · rw [if_neg h1]
    exact h

theorem lowerChar_of_not_keep {c : Char} (h : keepChar c = false) : lowerChar c = c := by
  have hne : ¬ keepChar c = true := by simp [h]
  have hcond : ¬ (((65 ≤ c.toNat && c.toNat ≤ 90)
      || (192 ≤ c.toNat && c.toNat ≤ 222 && !(c.toNat = 215 : Bool))) = true) := by
    intro h1
    apply hne
    unfold keepChar
    simp only [Bool.or_eq_true, Bool.and_eq_true, decide_eq_true_eq] at h1 ⊢
    omega
  unfold lowerChar
  rw [if_neg hcond]

theorem lower_keep_comm (c : Char) :
    lowerChar (if keepChar c then c else '_') =
      if keepChar (lowerChar c) then lowerChar c else '_' := by
  by_cases hk : keepChar c = true
  · rw [if_pos hk, if_pos (keep_lowerChar hk)]
  · have hf : keepChar c = false := by
      cases hkc : keepChar c
      · rfl
      · exact absurd hkc hk
    rw [if_neg hk, lowerChar_of_not_keep hf, if_neg hk]
    decide

/-- C9 (amended): the external resource name is `<slug>.md` where the
slug is obtained by lower-casing the title and replacing **each
character** outside the alphanumeric/accented-Latin class with a single
separator — one separator per replaced character, so a run of k
non-alphanumeric characters yields k separators (an empty slug falls
back to `untitled`). -/
theorem getFilename_eq_perChar (title : String) :
    getFilename title = perCharFilename title := by
  unfold getFilename perCharFilename
  have hmap : (title.toList.map (fun c => if keepChar c then c else '_')).map lowerChar
      = (title.toList.map lowerChar).map (fun c => if keepChar c then c else '_') := by
    simp only [List.map_map]
    exact List.map_congr_left (fun c _ => lower_keep_comm c)
  rw [hmap]

/-- C9 (counterexample): for the title `"a  b"` (two consecutive
spaces) the source produces `a__b.md` — one separator per replaced
character — whereas the claimed run-collapsing derivation produces
`a_b.md`. -/
theorem getFilename_run_cex :
    getFilename "a  b" = "a__b.md".toList ∧
    runCollapsedFilename "a  b" = "a_b.md".toList ∧
    getFilename "a  b" ≠ runCollapsedFilename "a  b" := by
  decide

/-! ### Lemmas about link extraction -/

/-- C6 (amended): the derived link set contains a directed link `s → t`
exactly when `s`'s body contains a marker `[[X]]` and `t` is the note
returned by the collection-order `find` for `X` — i.e. the **first**
note whose title case-insensitively equals `X` — and `t` is a different
note from `s`.  (When several notes share the matching title, only the
first receives the link; when the first match is `s` itself no link is
produced, even if a later note also matches.)  Self-resolving and
unmatched markers produce no link and no error, and the spec's example
collection yields exactly the single link 1→2. -/
theorem extractLinks_characterization :
    (∀ (notes : List Note) (l : GLink),
      l ∈ extractLinks notes ↔
        ∃ s ∈ notes, ∃ X ∈ findMarkers s.content.toList,
          ∃ t, notes.find? (fun n => lowerL n.title.toList = lowerL X) = some t ∧
            t.id ≠ s.id ∧ l = ⟨s.id, t.id⟩) ∧
    extractLinks [alphaNote, betaNote] = [⟨"1", "2"⟩] := by
  constructor
  · intro notes l
    unfold extractLinks
    rw [List.mem_flatMap]
    constructor
    · rintro ⟨s, hs, hl⟩
      rw [List.mem_filterMap] at hl
      obtain ⟨X, hX, hfX⟩ := hl
      refine ⟨s, hs, X, hX, ?_⟩
      cases hft : notes.find? (fun n => lowerL n.title.toList = lowerL X) with
      | none => rw [hft] at hfX; cases hfX
      | some t =>
        rw [hft] at hfX
        have hfX' : (if t.id ≠ s.id then some (GLink.mk s.id t.id) else none) = some l := hfX
        by_cases hid : t.id ≠ s.id
        · rw [if_pos hid] at hfX'
          exact ⟨t, rfl, hid, (Option.some_injective _ hfX').symm⟩
        · rw [if_neg hid] at hfX'; cases hfX'
    · rintro ⟨s, hs, X, hX, t, hft, hid, rfl⟩
      refine ⟨s, hs, List.mem_filterMap.mpr ⟨X, hX, ?_⟩⟩
      rw [hft]
      show (if t.id ≠ s.id then some (GLink.mk s.id t.id) else none) = some (GLink.mk s.id t.id)
      rw [if_pos hid]
  · decide

/-- C6 (counterexample): in a collection where two distinct notes (ids
`2` and `3`) both carry the title `B`, the marker `[[b]]` in note `1`
satisfies the claim's membership condition for the note with id `3`
(case-insensitive title match, different note), yet the derived link set
is exactly `[1→2]` — the link `1→3` demanded by the claim as stated is
absent, because the source resolves a marker only to the first matching
note. -/
theorem extractLinks_dup_title_cex :
    (∃ X ∈ findMarkers dupSrc.content.toList,
        lowerL dupB2.title.toList = lowerL X ∧ dupB2.id ≠ dupSrc.id) ∧
    dupB2 ∈ [dupSrc, dupB1, dupB2] ∧
    extractLinks [dupSrc, dupB1, dupB2] = [⟨"1", "2"⟩] ∧
    GLink.mk "1" "3" ∉ extractLinks [dupSrc, dupB1, dupB2] := by
  decide

/-! ### Lemmas about the vault merge -/

/-- When every in-memory note has a truthy `lastSavedTitle`, the
adoption heuristic cannot fire and one merge iteration is pure
identifier-based de-duplication. -/
theorem mergeStep_truthy {c : List Note} {n : Note}
    (hc : ∀ e ∈ c, truthyOptStr e.lastSavedTitle = true) :
    mergeStep c n =
      if (c.findIdx? (fun e => e.id = n.id)).isSome then c else c ++ [n] := by
  unfold mergeStep
  by_cases hid : (c.findIdx? (fun e => (e.id = n.id : Bool))).isSome = true
  · rw [if_pos hid, if_pos hid]
  · rw [if_neg hid, if_neg hid]
    cases hfi : c.findIdx? (fun e => e.title = n.title && !(truthyOptStr e.parentId)) with
    | none => rfl
    | some i =>
      cases hgi : c.get? i with
      | none =>
        rw [List.get?_eq_getElem?] at hgi
        simp [hgi]
      | some e =>
        have ht := hc e (List.get?_mem hgi)
        rw [List.get?_eq_getElem?] at hgi
        simp [hgi, ht]

theorem mergeStep_mem {c : List Note} {n e : Note}
    (hc : ∀ e' ∈ c, truthyOptStr e'.lastSavedTitle = true)
    (he : e ∈ c) : e ∈ mergeStep c n := by
  rw [mergeStep_truthy hc]
  split
  · exact he
  · exact List.mem_append_left _ he

theorem mergeStep_truthy_all {c : List Note} {n : Note}
    (hc : ∀ e ∈ c, truthyOptStr e.lastSavedTitle = true)
    (hn : truthyOptStr n.lastSavedTitle = true) :
    ∀ e ∈ mergeStep c n, truthyOptStr e.lastSavedTitle = true := by
  rw [mergeStep_truthy hc]
  split
  · exact hc
  · intro e he
    rcases List.mem_append.mp he with h | h
    · exact hc e h
    · rw [List.mem_singleton] at h
      rw [h]
      exact hn

theorem mergeStep_id_mem {c : List Note} {n : Note}
    (hc : ∀ e ∈ c, truthyOptStr e.lastSavedTitle = true) :
    ∃ e ∈ mergeStep c n, e.id = n.id := by
  rw [mergeStep_truthy hc]
  by_cases hid : (c.findIdx? (fun e => (e.id = n.id : Bool))).isSome = true
  · rw [if_pos hid]
    rw [List.findIdx?_isSome] at hid
    obtain ⟨e, he, hp⟩ := List.any_eq_true.mp hid
    exact ⟨e, he, of_decide_eq_true hp⟩
  · rw [if_neg hid]
    exact ⟨n, List.mem_append_right _ (List.mem_singleton.mpr rfl), rfl⟩

theorem mergeStep_eq_of_id_mem {c : List Note} {n : Note}
    (h : ∃ e ∈ c, e.id = n.id) : mergeStep c n = c := by
  have hs : (c.findIdx? (fun e => (e.id = n.id : Bool))).isSome = true := by
    rw [List.findIdx?_isSome]
    obtain ⟨e, he, hid⟩ := h
    exact List.any_eq_true.mpr ⟨e, he, decide_eq_true hid⟩
  unfold mergeStep
  rw [if_pos hs]

theorem mergeStep_idsNodup {c : List Note} {n : Note}
    (hc : ∀ e ∈ c, truthyOptStr e.lastSavedTitle = true)
    (hnd : idsNodup c) : idsNodup (mergeStep c n) := by
  rw [mergeStep_truthy hc]
  by_cases hid : (c.findIdx? (fun e => (e.id = n.id : Bool))).isSome = true
  · rw [if_pos hid]; exact hnd
  · rw [if_neg hid]
    have hne : ∀ e ∈ c, ¬ e.id = n.id := by
      intro e he hbad
      exact hid (by
        rw [List.findIdx?_isSome]
        exact List.any_eq_true.mpr ⟨e, he, decide_eq_true hbad⟩)
    unfold idsNodup at hnd ⊢
    rw [List.map_append]
    rw [List.nodup_append]
    refine ⟨hnd, List.nodup_singleton _, ?_⟩
    intro a ha hb
    rw [List.map_singleton, List.mem_singleton] at hb
    obtain ⟨e, he, rfl⟩ := List.mem_map.mp ha
    exact hne e he hb

theorem foldl_mergeStep_mem :
    ∀ (news c : List Note),
      (∀ e ∈ c, truthyOptStr e.lastSavedTitle = true) →
      (∀ n ∈ news, truthyOptStr n.lastSavedTitle = true) →
      ∀ e ∈ c, e ∈ news.foldl mergeStep c := by
  intro news
  induction news with
  | nil => intro c _ _ e he; exact he
  | cons m t ih =>
    intro c hc hn e he
    exact ih (mergeStep c m)
      (mergeStep_truthy_all hc (hn m (List.mem_cons_self m t)))
      (fun n hn' => hn n (List.mem_cons_of_mem m hn'))
      e (mergeStep_mem hc he)

theorem foldl_mergeStep_truthy :
    ∀ (news c : List Note),
      (∀ e ∈ c, truthyOptStr e.lastSavedTitle = true) →
      (∀ n ∈ news, truthyOptStr n.lastSavedTitle = true) →
      ∀ e ∈ news.foldl mergeStep c, truthyOptStr e.lastSavedTitle = true := by
  intro news
  induction news with
  | nil => intro c hc _; exact hc
  | cons m t ih =>
    intro c hc hn
    exact ih (mergeStep c m)
      (mergeStep_truthy_all hc (hn m (List.mem_cons_self m t)))
      (fun n hn' => hn n (List.mem_cons_of_mem m hn'))

theorem foldl_mergeStep_ids :
    ∀ (news c : List Note),
      (∀ e ∈ c, truthyOptStr e.lastSavedTitle = true) →
      (∀ n ∈ news, truthyOptStr n.lastSavedTitle = true) →
      ∀ n ∈ news, ∃ e ∈ news.foldl mergeStep c, e.id = n.id := by
  intro news
  induction news with
  | nil => intro c _ _ n hn; cases hn
  | cons m t ih =>
    intro c hc hn n hmem
    have hc' := mergeStep_truthy_all hc (hn m (List.mem_cons_self m t))
    have ht' : ∀ n' ∈ t, truthyOptStr n'.lastSavedTitle = true :=
      fun n' hn' => hn n' (List.mem_cons_of_mem m hn')
    rcases List.mem_cons.mp hmem with rfl | hmem'
    · obtain ⟨e, he, hid⟩ := mergeStep_id_mem (n := n) hc
      exact ⟨e, foldl_mergeStep_mem t (mergeStep c n) hc' ht' e he, hid⟩
    · exact ih (mergeStep c m) hc' ht' n hmem'

theorem foldl_mergeStep_nodup :
    ∀ (news c : List Note),
      (∀ e ∈ c, truthyOptStr e.lastSavedTitle = true) →
      (∀ n ∈ news, truthyOptStr n.lastSavedTitle = true) →
      idsNodup c → idsNodup (news.foldl mergeStep c) := by
  intro news
  induction news with
  | nil => intro c _ _ hnd; exact hnd
  | cons m t ih =>
    intro c hc hn hnd
    exact ih (mergeStep c m)
      (mergeStep_truthy_all hc (hn m (List.mem_cons_self m t)))
      (fun n hn' => hn n (List.mem_cons_of_mem m hn'))
      (mergeStep_idsNodup hc hnd)

theorem foldl_mergeStep_id_of_all {news c : List Note}
    (h : ∀ n ∈ news, mergeStep c n = c) : news.foldl mergeStep c = c := by
  induction news with
  | nil => rfl
  | cons m t ih =>
    rw [List.foldl_cons, h m (List.mem_cons_self m t)]
    exact ih (fun n hn => h n (List.mem_cons_of_mem m hn))

theorem insertByKeyDesc_perm (key : Note → ℤ) (x : Note) :
    ∀ l, List.Perm (insertByKeyDesc key x l) (x :: l) := by
  intro l
  induction l with
  | nil => rfl
  | cons y t ih =>
    unfold insertByKeyDesc
    by_cases hc : key x < key y
    · rw [if_pos hc]
      exact (List.Perm.cons y ih).trans (List.Perm.swap x y t)
    · rw [if_neg hc]

theorem sortByKeyDesc_perm (key : Note → ℤ) : ∀ l, List.Perm (sortByKeyDesc key l) l := by
  intro l
  induction l with
  | nil => rfl
  | cons x t ih =>
    unfold sortByKeyDesc
    exact (insertByKeyDesc_perm key x (sortByKeyDesc key t)).trans (List.Perm.cons x ih)

theorem insertByKeyDesc_sorted (key : Note → ℤ) (x : Note) :
    ∀ l, l.Pairwise (fun a b => key b ≤ key a) →
      (insertByKeyDesc key x l).Pairwise (fun a b => key b ≤ key a) := by
  intro l
  induction l with
  | nil => intro _; exact List.pairwise_singleton _ x
  | cons y t ih =>
    intro hp
    rw [List.pairwise_cons] at hp
    unfold insertByKeyDesc
    by_cases hc : key x < key y
    · rw [if_pos hc]
      rw [List.pairwise_cons]
      constructor
      · intro z hz
        have hz' := (insertByKeyDesc_perm key x t).mem_iff.mp hz
        rcases List.mem_cons.mp hz' with rfl | h
        · exact le_of_lt hc
        · exact hp.1 z h
      · exact ih hp.2
    · rw [if_neg hc]
      rw [List.pairwise_cons]
      constructor
      · intro z hz
        rcases List.mem_cons.mp hz with rfl | h
        · omega
        · have := hp.1 z h
          omega
      · exact List.pairwise_cons.mpr hp
  
theorem sortByKeyDesc_sorted (key : Note → ℤ) :
    ∀ l, (sortByKeyDesc key l).Pairwise (fun a b => key b ≤ key a) := by
  intro l
  induction l with
  | nil => exact List.Pairwise.nil
  | cons x t ih => exact insertByKeyDesc_sorted key x _ ih

theorem insertByKeyDesc_eq_cons (key : Note → ℤ) (x : Note) (l : List Note)
    (h : ∀ z ∈ l, key z ≤ key x) : insertByKeyDesc key x l = x :: l := by
  cases l with
  | nil => rfl
  | cons y t =>
    unfold insertByKeyDesc
    rw [if_neg]
    intro hc
    have := h y (List.mem_cons_self y t)
    omega

theorem sortByKeyDesc_eq_self (key : Note → ℤ) :
    ∀ l, l.Pairwise (fun a b => key b ≤ key a) → sortByKeyDesc key l = l := by
  intro l
  induction l with
  | nil => intro _; rfl
  | cons x t ih =>
    intro hp
    rw [List.pairwise_cons] at hp
    unfold sortByKeyDesc
    rw [ih hp.2]
    exact insertByKeyDesc_eq_cons key x t hp.1

/-- C1 (amended): when every in-memory note and every batch note carries
a truthy `lastSavedTitle` — so the unsaved-note title-adoption heuristic
cannot fire — and the in-memory ids are pairwise distinct, the
non-replace merge is idempotent: applying the same batch a second time
returns the identical collection (adds no note, changes no note), and
the merged collection never holds two notes with the same identifier. -/
theorem mergeNotes_idempotent (ts : String → ℤ) (prev news : List Note)
    (hprev : ∀ e ∈ prev, truthyOptStr e.lastSavedTitle = true)
    (hnews : ∀ n ∈ news, truthyOptStr n.lastSavedTitle = true)
    (hnd : idsNodup prev) :
    mergeNotes ts (mergeNotes ts prev news) news = mergeNotes ts prev news ∧
    idsNodup (mergeNotes ts prev news) := by
  by_cases hlen : news.length > 0
  · have hkey : mergeNotes ts prev news
        = sortByKeyDesc (fun n => ts n.updatedAt) (news.foldl mergeStep prev) := by
      unfold mergeNotes
      rw [if_pos hlen]
    set key : Note → ℤ := fun n => ts n.updatedAt with hkeydef
    set F := news.foldl mergeStep prev with hF
    set M := sortByKeyDesc key F with hM
    have hperm : List.Perm M F := sortByKeyDesc_perm key F
    have hFt : ∀ e ∈ F, truthyOptStr e.lastSavedTitle = true :=
      foldl_mergeStep_truthy news prev hprev hnews
    have hMt : ∀ e ∈ M, truthyOptStr e.lastSavedTitle = true :=
      fun e he => hFt e (hperm.mem_iff.mp he)
    have hMids : ∀ n ∈ news, ∃ e ∈ M, e.id = n.id := by
      intro n hn
      obtain ⟨e, he, hid⟩ := foldl_mergeStep_ids news prev hprev hnews n hn
      exact ⟨e, hperm.mem_iff.mpr he, hid⟩
    have hMnd : idsNodup M := by
      have := foldl_mergeStep_nodup news prev hprev hnews hnd
      unfold idsNodup at this ⊢
      exact ((hperm.map Note.id).nodup_iff).mpr this
    have hfold2 : news.foldl mergeStep M = M :=
      foldl_mergeStep_id_of_all (fun n hn => mergeStep_eq_of_id_mem (hMids n hn))
    constructor
    · rw [hkey]
      unfold mergeNotes
      rw [if_pos hlen, hfold2]
      exact sortByKeyDesc_eq_self key M (by rw [hM]; exact sortByKeyDesc_sorted key F)
    · rw [hkey]
      exact hMnd
  · simp only [mergeNotes, if_neg hlen]
    exact ⟨trivial, hnd⟩

theorem mergeNotes_idempotent_witness :
    ((∀ e ∈ [savedMemNote], truthyOptStr e.lastSavedTitle = true) ∧
     (∀ n ∈ [savedVaultNote], truthyOptStr n.lastSavedTitle = true) ∧
     idsNodup [savedMemNote]) ∧
    (mergeNotes tsZero (mergeNotes tsZero [savedMemNote] [savedVaultNote]) [savedVaultNote]
        = mergeNotes tsZero [savedMemNote] [savedVaultNote] ∧
      idsNodup (mergeNotes tsZero [savedMemNote] [savedVaultNote])) :=
  ⟨⟨by decide, by decide, by decide⟩,
   mergeNotes_idempotent tsZero [savedMemNote] [savedVaultNote]
     (by decide) (by decide) (by decide)⟩

/-- C1 (counterexample): with an in-memory note that was never flushed
(`lastSavedTitle` unset) and a batch note of the same title, the first
merge adopts the batch note under the in-memory id; merging the *same*
batch a second time then no longer finds the batch id and appends a
duplicate — the collection grows from 1 note to 2, so the non-replace
merge is not idempotent as claimed. -/
theorem mergeNotes_not_idempotent_cex :
    (mergeNotes tsZero [memNote] [vaultNote]).length = 1 ∧
    (mergeNotes tsZero (mergeNotes tsZero [memNote] [vaultNote]) [vaultNote]).length = 2 := by
  decide

/-! ### Lemmas about literal search and replace -/

theorem drop_append_small :
    ∀ (u v : List Char) (n : ℕ), n ≤ u.length → (u ++ v).drop n = u.drop n ++ v := by
  intro u
  induction u with
  | nil =>
    intro v n hn
    have h0 : n = 0 := Nat.le_zero.mp hn
    subst h0; rfl
  | cons c t ih =>
    intro v n hn
    cases n with
    | zero => rfl
    | succ m =>
      simp only [List.cons_append, List.drop_succ_cons]
      exact ih v m (by simpa using hn)

theorem drop_append_big :
    ∀ (u v : List Char) (n : ℕ), (u ++ v).drop (u.length + n) = v.drop n := by
  intro u
  induction u with
  | nil => intro v n; simp
  | cons c t ih =>
    intro v n
    simp only [List.cons_append, List.length_cons]
    rw [(by omega : t.length + 1 + n = (t.length + n) + 1), List.drop_succ_cons]
    exact ih v n

theorem containsSub_iff_drop {pat : List Char} (hpat : pat ≠ []) :
    ∀ s, containsSub pat s = true ↔ ∃ n, isPref pat (s.drop n) = true := by
  intro s
  induction s with
  | nil =>
    constructor
    · intro h
      exfalso
      cases pat with
      | nil => exact hpat rfl
      | cons c p => simp [containsSub] at h
    · rintro ⟨n, hn⟩
      exfalso
      cases pat with
      | nil => exact hpat rfl
      | cons c p => simp [List.drop_nil, isPref] at hn
  | cons c t ih =>
    simp only [containsSub, Bool.or_eq_true]
    constructor
    · rintro (h | h)
      · exact ⟨0, h⟩
      · obtain ⟨n, hn⟩ := ih.mp h
        exact ⟨n + 1, by simpa using hn⟩
    · rintro ⟨n, hn⟩
      cases n with
      | zero => exact Or.inl hn
      | succ m => exact Or.inr (ih.mpr ⟨m, by simpa using hn⟩)

theorem isPref_append_self : ∀ (a b : List Char), isPref a (a ++ b) = true := by
  intro a
  induction a with
  | nil => intro b; rfl
  | cons c t ih => intro b; simp [isPref, ih]

theorem containsSub_of_isPref {a b : List Char} (h : isPref a b = true) :
    containsSub a b = true := by
  cases b with
  | nil =>
    cases a with
    | nil => rfl
    | cons c t => simp [isPref] at h
  | cons c t => simp [containsSub, h]

theorem containsSub_rep_replaceAll (pat rep : List Char) (hpat : pat ≠ []) :
    ∀ s, containsSub pat s = true → containsSub rep (replaceAll pat rep s) = true := by
  intro s
  induction s using replaceAll.induct pat rep with
  | case1 =>
    intro h
    cases pat with
    | nil => exact absurd rfl hpat
    | cons c p => simp [containsSub] at h
  | case2 c t h ih =>
    intro _
    rw [replaceAll, dif_pos h]
    exact containsSub_of_isPref (isPref_append_self rep _)
  | case3 c t h ih =>
    intro hc
    rw [replaceAll, dif_neg h]
    have hnp : isPref pat (c :: t) = false := by
      cases hp : isPref pat (c :: t)
      · rfl
      · exact absurd ⟨hpat, hp⟩ h
    simp only [containsSub, hnp, Bool.false_or] at hc
    simp only [containsSub, Bool.or_eq_true]
    exact Or.inr (ih hc)

theorem replaceAll_of_not_contains (pat rep : List Char) :
    ∀ s, containsSub pat s = false → replaceAll pat rep s = s := by
  intro s
  induction s using replaceAll.induct pat rep with
  | case1 => intro _; simp [replaceAll]
  | case2 c t h ih =>
    intro hc
    exfalso
    simp only [containsSub, h.2, Bool.true_or] at hc
    cases hc
  | case3 c t h ih =>
    intro hc
    rw [replaceAll, dif_neg h]
    simp only [containsSub, Bool.or_eq_false_iff] at hc
    rw [ih hc.2]

theorem isPref_length_le : ∀ {a b : List Char}, isPref a b = true → a.length ≤ b.length := by
  intro a
  induction a with
  | nil => intro b _; simp
  | cons c t ih =>
    intro b h
    cases b with
    | nil => simp [isPref] at h
    | cons d s =>
      simp only [isPref, Bool.and_eq_true] at h
      simpa using ih h.2

theorem isPref_eq_of_length : ∀ {a b : List Char}, isPref a b = true →
    b.length ≤ a.length → a = b := by
  intro a
  induction a with
  | nil =>
    intro b _ hl
    cases b with
    | nil => rfl
    | cons d s => simp at hl
  | cons c t ih =>
    intro b h hl
    cases b with
    | nil => simp [isPref] at h
    | cons d s =>
      simp only [isPref, Bool.and_eq_true, decide_eq_true_eq] at h
      rw [h.1, ih h.2 (by simpa using hl)]

theorem isPref_or_of_append : ∀ (x u v : List Char), isPref x (u ++ v) = true →
    isPref x u = true ∨ isPref u x = true := by
  intro x
  induction x with
  | nil => intro u v _; exact Or.inl rfl
  | cons a p ih =>
    intro u v h
    cases u with
    | nil => exact Or.inr rfl
    | cons b u' =>
      simp only [List.cons_append, isPref, Bool.and_eq_true] at h ⊢
      rcases ih u' v h.2 with h' | h'
      · exact Or.inl ⟨h.1, h'⟩
      · refine Or.inr ⟨by simpa [eq_comm] using h.1, h'⟩

/-- Replacing every occurrence of `pat` by a same-length `rep` that
shares no suffix/prefix material with `pat` leaves no occurrence of
`pat` in the output.  The second conjunct is the strengthening needed by
the induction: a proper nonempty tail of `pat` can start the output only
where it already started the input. -/
theorem replaceAll_wipes (pat rep : List Char) (hpat : pat ≠ [])
    (hlen : rep.length = pat.length)
    (hsuf : ∀ n, n < rep.length → isPref (rep.drop n) pat = false)
    (hjp : ∀ j, 0 < j → j < pat.length → isPref (pat.drop j) rep = false) :
    ∀ s, containsSub pat (replaceAll pat rep s) = false ∧
      (∀ j, 0 < j → j < pat.length →
        isPref (pat.drop j) (replaceAll pat rep s) = true → isPref (pat.drop j) s = true) := by
  have hreplen : 0 < rep.length := by
    rw [hlen]
    exact List.length_pos.mpr hpat
  intro s
  induction s using replaceAll.induct pat rep with
  | case1 =>
    constructor
    · simp only [replaceAll]
      cases pat with
      | nil => exact absurd rfl hpat
      | cons c p => rfl
    · intro j hj0 hjl hp
      simpa [replaceAll] using hp
  | case2 c t h ih =>
    rw [replaceAll, dif_pos h]
    obtain ⟨ih1, ih2⟩ := ih
    constructor
    · cases hcc : containsSub pat (rep ++ replaceAll pat rep ((c :: t).drop pat.length)) with
      | false => rfl
      | true =>
        exfalso
        obtain ⟨n, hn⟩ := (containsSub_iff_drop hpat _).mp hcc
        by_cases hn7 : n < rep.length
        · rw [drop_append_small _ _ n (le_of_lt hn7)] at hn
          rcases isPref_or_of_append _ _ _ hn with h' | h'
          · have hle := isPref_length_le h'
            rw [List.length_drop] at hle
            have hn0 : n = 0 := by omega
            subst hn0
            have heq : pat = rep.drop 0 := isPref_eq_of_length h' (by simpa using hlen.le)
            have := hsuf 0 hreplen
            rw [← heq] at this
            rw [isPref_eq_of_length h' (by simpa using hlen.le)] at this
            simp only [List.drop_zero] at this heq
            rw [← heq] at this
            have hrefl : isPref pat pat = true := by
              have := isPref_append_self pat []
              simpa using this
            rw [hrefl] at this
            cases this
          · exact absurd h' (by simp [hsuf n hn7])
        · have hn' : n = rep.length + (n - rep.length) := by omega
          rw [hn', drop_append_big] at hn
          have : containsSub pat (replaceAll pat rep ((c :: t).drop pat.length)) = true := by
            apply (containsSub_iff_drop hpat _).mpr
            exact ⟨n - rep.length, hn⟩
          rw [this] at ih1
          cases ih1
    · intro j hj0 hjl hp
      exfalso
      rcases isPref_or_of_append _ _ _ hp with h' | h'
      · exact absurd h' (by simp [hjp j hj0 hjl])
      · have hle := isPref_length_le h'
        rw [List.length_drop] at hle
        omega
  | case3 c t h ih =>
    rw [replaceAll, dif_neg h]
    obtain ⟨ih1, ih2⟩ := ih
    have hnp : isPref pat (c :: t) = false := by
      cases hp : isPref pat (c :: t)
      · rfl
      · exact absurd ⟨hpat, hp⟩ h
    constructor
    · simp only [containsSub, Bool.or_eq_false_iff]
      refine ⟨?_, ih1⟩
      cases hpp : isPref pat (c :: replaceAll pat rep t) with
      | false => rfl
      | true =>
        exfalso
        cases hq : pat with
        | nil => exact hpat hq
        | cons p0 p' =>
          rw [hq] at hpp
          simp only [isPref, Bool.and_eq_true, decide_eq_true_eq] at hpp
          have htail : isPref p' t = true := by
            cases hp' : p' with
            | nil => rfl
            | cons q0 q' =>
              have hj : isPref (pat.drop 1) (replaceAll pat rep t) = true := by
                rw [hq]
                simpa using hpp.2
              have := ih2 1 (by omega) (by rw [hq, hp']; simp) hj
              rw [hq] at this
              simpa [hp'] using this
          rw [hq] at hnp
          simp only [isPref] at hnp
          rw [hpp.1, htail] at hnp
          simp at hnp
    · intro j hj0 hjl hp
      cases hq : pat.drop j with
      | nil =>
        have : pat.length - j = 0 := by
          have := congrArg List.length hq
          simpa using this
        omega
      | cons q0 q' =>
        rw [hq] at hp
        simp only [isPref, Bool.and_eq_true, decide_eq_true_eq] at hp
        have hq' : pat.drop (j + 1) = q' := by
          have : pat.drop (j + 1) = (pat.drop j).drop 1 := by
            rw [List.drop_drop]
          rw [this, hq]
          rfl
        have htail : isPref q' t = true := by
          by_cases hj1 : j + 1 < pat.length
          · have := ih2 (j + 1) (by omega) hj1 (by rw [hq']; exact hp.2)
            rw [hq'] at this
            exact this
          · have hlen' : pat.length ≤ j + 1 := by omega
            have : pat.drop (j + 1) = [] := List.drop_eq_nil_of_le hlen'
            rw [hq'] at this
            rw [this]
            rfl
        simp only [isPref, Bool.and_eq_true, decide_eq_true_eq]
        exact ⟨hp.1, htail⟩

/-! ### Lemmas about the timer state machine -/

theorem dollarSubst_no_dollar (matched before after : List Char) :
    ∀ {rep : List Char}, '$' ∉ rep → dollarSubst matched before after rep = rep := by
  intro rep
  induction rep with
  | nil => intro _; rfl
  | cons c t ih =>
    intro h
    have hd : ¬ '$' = c ∧ '$' ∉ t := by simpa [List.mem_cons, not_or] using h
    have hc : ¬ c = '$' := fun hb => hd.1 hb.symm
    rw [dollarSubst.eq_def]
    simp only [if_neg hc, ih hd.2]

theorem replaceDollar_no_dollar (pat rep : List Char) (hrep : '$' ∉ rep) :
    ∀ (s done : List Char), replaceDollar pat rep done s = replaceAll pat rep s := by
  intro s
  induction s using replaceAll.induct pat rep with
  | case1 =>
    intro done
    simp [replaceDollar, replaceAll]
  | case2 c t h ih =>
    intro done
    rw [replaceDollar, dif_pos h, replaceAll, dif_pos h,
        dollarSubst_no_dollar _ _ _ hrep, ih _]
  | case3 c t h ih =>
    intro done
    rw [replaceDollar, dif_neg h, replaceAll, dif_neg h, ih _]

theorem clearFor_notes (s : AppState) (i : String) : (clearFor s i).notes = s.notes := by
  unfold clearFor
  cases refLookup s.ref i <;> rfl

theorem clearFor_ref (s : AppState) (i : String) : (clearFor s i).ref = s.ref := by
  unfold clearFor
  cases refLookup s.ref i <;> rfl

theorem clearFor_nextT (s : AppState) (i : String) : (clearFor s i).nextT = s.nextT := by
  unfold clearFor
  cases refLookup s.ref i <;> rfl

theorem clearFor_timers_sub (s : AppState) (i : String) :
    ∀ tm ∈ (clearFor s i).timers, tm ∈ s.timers := by
  unfold clearFor
  cases refLookup s.ref i with
  | none => intro tm h; exact h
  | some t => intro tm h; exact List.mem_of_mem_filter h

theorem timersFor_clearFor_self {s : AppState} (hwf : WFApp s) (i : String) :
    timersFor (clearFor s i) i = [] := by
  unfold clearFor timersFor
  cases hr : refLookup s.ref i with
  | none =>
    rw [List.filter_eq_nil_iff]
    intro tm htm
    simp only [decide_eq_true_eq]
    intro hid
    have := hwf.2.2.2.1 tm htm
    rw [hid, hr] at this
    cases this
  | some t =>
    rw [List.filter_eq_nil_iff]
    intro tm htm
    obtain ⟨htm', hpr⟩ := List.mem_filter.mp htm
    simp only [decide_eq_true_eq]
    intro hid
    have := hwf.2.2.2.1 tm htm'
    rw [hid, hr] at this
    have ht : tm.tid = t := (Option.some_injective _ this).symm
    rw [ht] at hpr
    simp at hpr

theorem timersFor_clearFor_ne {s : AppState} (hwf : WFApp s) {i j : String} (hij : j ≠ i) :
    timersFor (clearFor s i) j = timersFor s j := by
  unfold clearFor timersFor
  cases hr : refLookup s.ref i with
  | none => rfl
  | some t =>
    rw [List.filter_filter]
    apply List.filter_congr
    intro tm htm
    cases hid : (tm.noteId = j : Bool)
    · simp
    · have hj : tm.noteId = j := of_decide_eq_true hid
      have hne : ¬ tm.tid = t := by
        intro hbad
        obtain ⟨p, hp, hfind⟩ : ∃ p ∈ s.ref, p.1 = i ∧ p.2 = t := by
          unfold refLookup at hr
          cases hf : s.ref.find? (fun p => p.1 = i) with
          | none => rw [hf] at hr; cases hr
          | some p =>
            rw [hf] at hr
            have h1 := List.find?_some hf
            have h2 := List.mem_of_find?_eq_some hf
            exact ⟨p, h2, of_decide_eq_true h1, Option.some_injective _ hr⟩
        have := hwf.2.2.2.2 p hp tm htm (by rw [hbad, hfind.2])
        rw [hj, hfind.1] at this
        exact hij this
      simp [hne]

theorem timersFor_schedule_self (s : AppState) (i : String) (p : Note) :
    timersFor (schedule s i p) i = timersFor s i ++ [⟨s.nextT, i, p⟩] := by
  unfold schedule timersFor
  rw [List.filter_append]
  simp

theorem timersFor_schedule_ne (s : AppState) {i j : String} (hij : j ≠ i) (p : Note) :
    timersFor (schedule s i p) j = timersFor s j := by
  unfold schedule timersFor
  rw [List.filter_append]
  simp [Ne.symm hij]

theorem mem_refSet : ∀ (r : List (String × ℕ)) (i : String) (t : ℕ) (p : String × ℕ),
    p ∈ refSet r i t → p = (i, t) ∨ p ∈ r := by
  intro r
  induction r with
  | nil =>
    intro i t p hp
    rw [refSet] at hp
    exact Or.inl (List.mem_singleton.mp hp)
  | cons q rest ih =>
    intro i t p hp
    rw [refSet] at hp
    by_cases hq : q.1 = i
    · rw [if_pos hq] at hp
      rcases List.mem_cons.mp hp with h | h
      · exact Or.inl h
      · exact Or.inr (List.mem_cons_of_mem q h)
    · rw [if_neg hq] at hp
      rcases List.mem_cons.mp hp with h | h
      · exact Or.inr (h ▸ List.mem_cons_self q rest)
      · rcases ih i t p h with h' | h'
        · exact Or.inl h'
        · exact Or.inr (List.mem_cons_of_mem q h')

theorem refLookup_refSet_self : ∀ (r : List (String × ℕ)) (i : String) (t : ℕ),
    refLookup (refSet r i t) i = some t := by
  intro r
  induction r with
  | nil => intro i t; simp [refSet, refLookup, List.find?]
  | cons q rest ih =>
    intro i t
    rw [refSet]
    by_cases hq : q.1 = i
    · rw [if_pos hq]
      simp [refLookup, List.find?]
    · rw [if_neg hq]
      unfold refLookup at ih ⊢
      rw [List.find?_cons_of_neg _ (by simpa using hq)]
      exact ih i t

theorem refLookup_refSet_ne : ∀ (r : List (String × ℕ)) (i j : String) (t : ℕ), j ≠ i →
    refLookup (refSet r i t) j = refLookup r j := by
  intro r
  induction r with
  | nil =>
    intro i j t hij
    simp [refSet, refLookup, List.find?, Ne.symm hij]
  | cons q rest ih =>
    intro i j t hij
    rw [refSet]
    by_cases hq : q.1 = i
    · rw [if_pos hq]
      unfold refLookup
      rw [List.find?_cons_of_neg _ (by simp [hq, Ne.symm hij]),
        List.find?_cons_of_neg _ (by simp [hq, Ne.symm hij])]
    · rw [if_neg hq]
      unfold refLookup at ih ⊢
      cases hqj : (q.1 = j : Bool)
      · rw [List.find?_cons_of_neg _ (by simp_all), List.find?_cons_of_neg _ (by simp_all)]
        exact ih i j t hij
      · simp [List.find?_cons, hqj]

theorem WFApp_clearFor {s : AppState} (hwf : WFApp s) (i : String) :
    WFApp (clearFor s i) := by
  obtain ⟨h1, h2, h3, h4, h5⟩ := hwf
  refine ⟨?_, ?_, ?_, ?_, ?_⟩
  · rw [clearFor_ref, clearFor_nextT]
    exact h1
  · rw [clearFor_nextT]
    exact fun tm htm => h2 tm (clearFor_timers_sub s i tm htm)
  · unfold clearFor
    cases refLookup s.ref i with
    | none => exact h3
    | some t => exact (List.Sublist.map Timer.tid (List.filter_sublist _)).nodup h3
  · rw [clearFor_ref]
    exact fun tm htm => h4 tm (clearFor_timers_sub s i tm htm)
  · rw [clearFor_ref]
    exact fun p hp tm htm => h5 p hp tm (clearFor_timers_sub s i tm htm)

theorem WFApp_schedule {s : AppState} (hwf : WFApp s) (i : String) (pl : Note)
    (hempty : timersFor s i = []) : WFApp (schedule s i pl) := by
  obtain ⟨h1, h2, h3, h4, h5⟩ := hwf
  have hnone : ∀ tm ∈ s.timers, ¬ tm.noteId = i := by
    intro tm htm hbad
    have : tm ∈ timersFor s i := by
      unfold timersFor
      exact List.mem_filter.mpr ⟨htm, by simp [hbad]⟩
    rw [hempty] at this
    cases this
  refine ⟨?_, ?_, ?_, ?_, ?_⟩
  · intro p hp
    show p.2 < s.nextT + 1
    rcases mem_refSet s.ref i s.nextT p hp with rfl | h
    · omega
    · exact Nat.lt_succ_of_lt (h1 p h)
  · intro tm htm
    show tm.tid < s.nextT + 1
    rcases List.mem_append.mp htm with h | h
    · exact Nat.lt_succ_of_lt (h2 tm h)
    · have htm' : tm = Timer.mk s.nextT i pl := List.mem_singleton.mp h
      rw [htm']
      exact Nat.lt_succ_self _
  · show ((s.timers ++ [Timer.mk s.nextT i pl]).map Timer.tid).Nodup
    rw [List.map_append]
    rw [List.nodup_append]
    refine ⟨h3, List.nodup_singleton _, ?_⟩
    intro a ha hb
    simp only [List.map_singleton, List.mem_singleton] at hb
    obtain ⟨tm, htm, rfl⟩ := List.mem_map.mp ha
    have := h2 tm htm
    omega
  · intro tm htm
    rcases List.mem_append.mp htm with h | h
    · show refLookup (refSet s.ref i s.nextT) tm.noteId = some tm.tid
      rw [refLookup_refSet_ne s.ref i tm.noteId s.nextT (hnone tm h)]
      exact h4 tm h
    · rw [List.mem_singleton.mp h]
      show refLookup (refSet s.ref i s.nextT) i = some s.nextT
      exact refLookup_refSet_self s.ref i s.nextT
  · intro p hp tm htm htid
    rcases List.mem_append.mp htm with h | h
    · rcases mem_refSet s.ref i s.nextT p hp with rfl | hp'
      · exfalso
        have := h2 tm h
        simp only at htid
        omega
      · exact h5 p hp' tm h htid
    · rw [List.mem_singleton.mp h] at htid ⊢
      rcases mem_refSet s.ref i s.nextT p hp with rfl | hp'
      · rfl
      · exfalso
        have := h1 p hp'
        simp only at htid
        omega

theorem WFApp_schedule_clearFor {s : AppState} (hwf : WFApp s) (i : String) (pl : Note) :
    WFApp (schedule (clearFor s i) i pl) :=
  WFApp_schedule (WFApp_clearFor hwf i) i pl (timersFor_clearFor_self hwf i)

theorem WFApp_ite_schedule {ts : AppState} (hwf : WFApp ts) (c : Prop) [Decidable c]
    (i : String) (p : Note) :
    WFApp (if c then schedule (clearFor ts i) i p else ts) := by
  by_cases h : c
  · rw [if_pos h]
    exact WFApp_schedule_clearFor hwf i p
  · rw [if_neg h]
    exact hwf

theorem timersFor_ite_schedule_ne {ts : AppState} (hwf : WFApp ts) (c : Prop) [Decidable c]
    {i j : String} (hij : ¬ i = j) (p : Note) :
    timersFor (if c then schedule (clearFor ts i) i p else ts) j = timersFor ts j := by
  by_cases h : c
  · rw [if_pos h, timersFor_schedule_ne _ (fun hb => hij hb.symm) _]
    exact timersFor_clearFor_ne hwf (fun hb => hij hb.symm)
  · rw [if_neg h]

theorem refactorGo_no_doIt (vault : Bool) (now : String) (pat rep : List Char)
    (id : String) (un : Note) :
    ∀ (l : List Note) (ts : AppState),
      refactorGo vault now false pat rep id un l ts
        = (l.map (fun n => if n.id = id then un else n), ts) := by
  intro l
  induction l with
  | nil => intro ts; rfl
  | cons n rest ih =>
    intro ts
    rw [refactorGo]
    by_cases hid : n.id = id
    · rw [if_pos hid, ih]
      simp [hid]
    · rw [if_neg hid, Bool.false_and, if_neg Bool.false_ne_true, ih]
      simp [hid]

theorem refactorGo_WF (vault : Bool) (now : String) (doIt : Bool) (pat rep : List Char)
    (id : String) (un : Note) :
    ∀ (l : List Note) (ts : AppState), WFApp ts →
      WFApp (refactorGo vault now doIt pat rep id un l ts).2 := by
  intro l
  induction l with
  | nil => intro ts h; exact h
  | cons n rest ih =>
    intro ts h
    rw [refactorGo]
    by_cases hid : n.id = id
    · rw [if_pos hid]
      exact ih ts h
    · rw [if_neg hid]
      by_cases hct : (doIt && containsSub pat n.content.toList) = true
      · rw [if_pos hct]
        exact ih _ (WFApp_ite_schedule h _ n.id _)
      · rw [if_neg hct]
        exact ih ts h

theorem refactorGo_timers_untouched (vault : Bool) (now : String) (doIt : Bool)
    (pat rep : List Char) (id : String) (un : Note) :
    ∀ (l : List Note) (ts : AppState) (j : String), WFApp ts →
      (∀ n ∈ l, ¬ n.id = j) →
      timersFor (refactorGo vault now doIt pat rep id un l ts).2 j = timersFor ts j := by
  intro l
  induction l with
  | nil => intro ts j _ _; rfl
  | cons n rest ih =>
    intro ts j hwf hl
    have hn : ¬ n.id = j := hl n (List.mem_cons_self n rest)
    have hrest : ∀ m ∈ rest, ¬ m.id = j := fun m hm => hl m (List.mem_cons_of_mem n hm)
    rw [refactorGo]
    by_cases hid : n.id = id
    · rw [if_pos hid]
      exact ih ts j hwf hrest
    · rw [if_neg hid]
      by_cases hct : (doIt && containsSub pat n.content.toList) = true
      · rw [if_pos hct]
        show timersFor (refactorGo vault now doIt pat rep id un rest _).2 j = timersFor ts j
        rw [ih _ j (WFApp_ite_schedule hwf _ n.id _) hrest]
        exact timersFor_ite_schedule_ne hwf _ hn _
      · rw [if_neg hct]
        exact ih ts j hwf hrest

theorem refactorGo_cons_id {v : Bool} {now : String} {d : Bool} {pat rep : List Char}
    {id : String} {un n : Note} {rest : List Note} {ts : AppState} (h : n.id = id) :
    refactorGo v now d pat rep id un (n :: rest) ts =
      (un :: (refactorGo v now d pat rep id un rest ts).1,
       (refactorGo v now d pat rep id un rest ts).2) := by
  rw [refactorGo, if_pos h]

theorem refactorGo_cons_rewrite {v : Bool} {now : String} {d : Bool} {pat rep : List Char}
    {id : String} {un n : Note} {rest : List Note} {ts : AppState}
    (hid : ¬ n.id = id) (hct : (d && containsSub pat n.content.toList) = true) :
    refactorGo v now d pat rep id un (n :: rest) ts =
      ({ n with content := String.mk (replaceDollar pat rep [] n.content.toList), updatedAt := now } ::
        (refactorGo v now d pat rep id un rest
          (if v = true then schedule (clearFor ts n.id) n.id { n with content := String.mk (replaceDollar pat rep [] n.content.toList), updatedAt := now } else ts)).1,
       (refactorGo v now d pat rep id un rest
          (if v = true then schedule (clearFor ts n.id) n.id { n with content := String.mk (replaceDollar pat rep [] n.content.toList), updatedAt := now } else ts)).2) := by
  rw [refactorGo, if_neg hid, if_pos hct]

theorem refactorGo_cons_skip {v : Bool} {now : String} {d : Bool} {pat rep : List Char}
    {id : String} {un n : Note} {rest : List Note} {ts : AppState}
    (hid : ¬ n.id = id) (hct : ¬ (d && containsSub pat n.content.toList) = true) :
    refactorGo v now d pat rep id un (n :: rest) ts =
      (n :: (refactorGo v now d pat rep id un rest ts).1,
       (refactorGo v now d pat rep id un rest ts).2) := by
  rw [refactorGo, if_neg hid, if_neg hct]

theorem refactorGo_on_B (now : String) (pat rep : List Char) (id : String) (un : Note)
    (B : Note) (hBid : ¬ B.id = id) :
    ∀ (l : List Note) (ts : AppState), WFApp ts → (l.map Note.id).Nodup → B ∈ l →
      ∃ B' ∈ (refactorGo true now true pat rep id un l ts).1,
        B'.id = B.id ∧
        (if containsSub pat B.content.toList = true then
          B' = { B with content := String.mk (replaceDollar pat rep [] B.content.toList), updatedAt := now } ∧
          ∃ tm ∈ (refactorGo true now true pat rep id un l ts).2.timers,
            tm.noteId = B.id ∧ tm.payload = B'
        else B' = B ∧
          timersFor (refactorGo true now true pat rep id un l ts).2 B.id
            = timersFor ts B.id) := by
  intro l
  induction l with
  | nil => intro ts _ _ hB; cases hB
  | cons n rest ih =>
    intro ts hwf hnd hB
    have hndrest : (rest.map Note.id).Nodup := (List.nodup_cons.mp hnd).2
    have hnid : n.id ∉ rest.map Note.id := (List.nodup_cons.mp hnd).1
    rcases List.mem_cons.mp hB with rfl | hBrest
    · have hrestB : ∀ m ∈ rest, ¬ m.id = B.id := by
        intro m hm hbad
        exact hnid (hbad ▸ List.mem_map_of_mem Note.id hm)
      by_cases hct : containsSub pat B.content.toList = true
      · rw [refactorGo_cons_rewrite hBid (by simp only [Bool.true_and]; exact hct), if_pos rfl]
        refine ⟨_, List.mem_cons_self _ _, rfl, ?_⟩
        rw [if_pos hct]
        refine ⟨rfl, ?_⟩
        have hwf' : WFApp (schedule (clearFor ts B.id) B.id { B with content := String.mk (replaceDollar pat rep [] B.content.toList), updatedAt := now }) := WFApp_schedule_clearFor hwf B.id _
        have huntouched := refactorGo_timers_untouched true now true pat rep id un
          rest _ B.id hwf' hrestB
        refine ⟨⟨(clearFor ts B.id).nextT, B.id, { B with content := String.mk (replaceDollar pat rep [] B.content.toList), updatedAt := now }⟩, ?_, rfl, rfl⟩
        have hmem : (Timer.mk (clearFor ts B.id).nextT B.id { B with content := String.mk (replaceDollar pat rep [] B.content.toList), updatedAt := now }) ∈ timersFor (schedule (clearFor ts B.id) B.id { B with content := String.mk (replaceDollar pat rep [] B.content.toList), updatedAt := now }) B.id := by
          rw [timersFor_schedule_self]
          exact List.mem_append_right _ (List.mem_singleton.mpr rfl)
        rw [← huntouched] at hmem
        exact List.mem_of_mem_filter hmem
      · rw [refactorGo_cons_skip hBid (by simp only [Bool.true_and]; exact hct)]
        refine ⟨B, List.mem_cons_self _ _, rfl, ?_⟩
        rw [if_neg hct]
        exact ⟨rfl, refactorGo_timers_untouched true now true pat rep id un
          rest ts B.id hwf hrestB⟩
    · have hnB : ¬ n.id = B.id := by
        intro h
        exact hnid (h ▸ List.mem_map_of_mem Note.id hBrest)
      by_cases hid : n.id = id
      · rw [refactorGo_cons_id hid]
        obtain ⟨B', hB', hid', hrest'⟩ := ih ts hwf hndrest hBrest
        exact ⟨B', List.mem_cons_of_mem _ hB', hid', hrest'⟩
      · by_cases hct : containsSub pat n.content.toList = true
        · rw [refactorGo_cons_rewrite hid (by simp only [Bool.true_and]; exact hct), if_pos rfl]
          have hwf' : WFApp (schedule (clearFor ts n.id) n.id { n with content := String.mk (replaceDollar pat rep [] n.content.toList), updatedAt := now }) := WFApp_schedule_clearFor hwf n.id _
          obtain ⟨B', hB', hid', hrest'⟩ := ih _ hwf' hndrest hBrest
          refine ⟨B', List.mem_cons_of_mem _ hB', hid', ?_⟩
          by_cases hctB : containsSub pat B.content.toList = true
          · rw [if_pos hctB] at hrest' ⊢
            exact hrest'
          · rw [if_neg hctB] at hrest' ⊢
            refine ⟨hrest'.1, ?_⟩
            rw [hrest'.2]
            rw [timersFor_schedule_ne _ (fun hb => hnB hb.symm) _]
            exact timersFor_clearFor_ne hwf (fun hb => hnB hb.symm)
        · rw [refactorGo_cons_skip hid (by simp only [Bool.true_and]; exact hct)]
          obtain ⟨B', hB', hid', hrest'⟩ := ih ts hwf hndrest hBrest
          exact ⟨B', List.mem_cons_of_mem _ hB', hid', hrest'⟩

theorem find?_id_of_mem : ∀ {l : List Note} {a : Note}, idsNodup l → a ∈ l →
    l.find? (fun n => n.id = a.id) = some a := by
  intro l
  induction l with
  | nil => intro a _ ha; cases ha
  | cons x t ih =>
    intro a hnd ha
    unfold idsNodup at hnd
    rw [List.map_cons] at hnd
    have hnd' := List.nodup_cons.mp hnd
    rcases List.mem_cons.mp ha with rfl | hmem
    · rw [List.find?_cons_of_pos _ (by simp)]
    · rw [List.find?_cons_of_neg _ ?_]
      · exact ih hnd'.2 hmem
      · simp only [decide_eq_true_eq]
        intro hbad
        exact hnd'.1 (hbad ▸ List.mem_map_of_mem Note.id hmem)

theorem updateNote_title_change {now id T' : String} {s : AppState} {old : Note}
    (hf : s.notes.find? (fun n => n.id = id) = some old)
    (hne : ¬ T' = old.title) (h0 : ¬ old.title = "") (h0' : ¬ T' = "") :
    updateNote true now id ⟨some T', none, none⟩ false s =
      { (refactorGo true now true
          ("[[".toList ++ old.title.toList ++ "]]".toList)
          ("[[".toList ++ T'.toList ++ "]]".toList)
          id { old with title := T', updatedAt := now }
          s.notes (clearFor s id)).2 with
        notes := (refactorGo true now true
          ("[[".toList ++ old.title.toList ++ "]]".toList)
          ("[[".toList ++ T'.toList ++ "]]".toList)
          id { old with title := T', updatedAt := now }
          s.notes (clearFor s id)).1 } := by
  have hd1 : decide (some T' = some old.title) = false :=
    decide_eq_false (fun h => hne (Option.some_injective _ h))
  have hd2 : decide (old.title = "") = false := decide_eq_false h0
  have hd3 : decide (T' = "") = false := decide_eq_false h0'
  unfold updateNote
  simp only [clearFor_notes, hf, applyUpdates, Option.getD_some, Option.getD_none,
    Option.isSome_some, Option.isSome_none, Bool.true_and, Bool.false_and, Bool.or_self,
    hd1, hd2, hd3, Bool.not_false, Bool.and_true, reduceIte]
  rfl

theorem updateNote_content_change {now id c : String} {s : AppState} {old : Note}
    (hf : s.notes.find? (fun n => n.id = id) = some old)
    (hne : ¬ c = old.content) :
    updateNote true now id ⟨none, some c, none⟩ false s =
      { schedule (clearFor s id) id { old with content := c, updatedAt := now } with
        notes := s.notes.map (fun n =>
          if n.id = id then { old with content := c, updatedAt := now } else n) } := by
  have hd1 : decide (some c = some old.content) = false :=
    decide_eq_false (fun h => hne (Option.some_injective _ h))
  unfold updateNote
  simp only [clearFor_notes, hf, applyUpdates, Option.getD_some, Option.getD_none,
    Option.isSome_some, Option.isSome_none, Bool.true_and, Bool.false_and, Bool.or_self,
    hd1, Bool.not_false, Bool.and_true, Bool.and_false, reduceIte,
    refactorGo_no_doIt]
  rfl

theorem clearFor_writes (s : AppState) (i : String) : (clearFor s i).writes = s.writes := by
  unfold clearFor
  cases refLookup s.ref i <;> rfl

theorem timersFor_set_notes (s : AppState) (l : List Note) (i : String) :
    timersFor { s with notes := l } i = timersFor s i := rfl

theorem writes_set_notes (s : AppState) (l : List Note) :
    ({ s with notes := l } : AppState).writes = s.writes := rfl

theorem refactorGo_writes (vault : Bool) (now : String) (doIt : Bool)
    (pat rep : List Char) (id : String) (un : Note) :
    ∀ (l : List Note) (ts : AppState),
      (refactorGo vault now doIt pat rep id un l ts).2.writes = ts.writes := by
  intro l
  induction l with
  | nil => intro ts; rfl
  | cons n rest ih =>
    intro ts
    rw [refactorGo]
    by_cases hid : n.id = id
    · rw [if_pos hid]
      exact ih ts
    · rw [if_neg hid]
      by_cases hct : (doIt && containsSub pat n.content.toList) = true
      · rw [if_pos hct]
        show (refactorGo vault now doIt pat rep id un rest _).2.writes = ts.writes
        rw [ih]
        cases vault
        · rfl
        · show (schedule (clearFor ts n.id) n.id _).writes = ts.writes
          show (clearFor ts n.id).writes = ts.writes
          exact clearFor_writes ts n.id
      · rw [if_neg hct]
        exact ih ts

theorem refactorGo_timersFor_id (vault : Bool) (now : String) (doIt : Bool)
    (pat rep : List Char) (id : String) (un : Note) :
    ∀ (l : List Note) (ts : AppState), WFApp ts →
      timersFor (refactorGo vault now doIt pat rep id un l ts).2 id = timersFor ts id := by
  intro l
  induction l with
  | nil => intro ts _; rfl
  | cons n rest ih =>
    intro ts hwf
    rw [refactorGo]
    by_cases hid : n.id = id
    · rw [if_pos hid]
      exact ih ts hwf
    · rw [if_neg hid]
      by_cases hct : (doIt && containsSub pat n.content.toList) = true
      · rw [if_pos hct]
        show timersFor (refactorGo vault now doIt pat rep id un rest _).2 id = timersFor ts id
        rw [ih _ (WFApp_ite_schedule hwf _ n.id _)]
        exact timersFor_ite_schedule_ne hwf _ hid _
      · rw [if_neg hct]
        exact ih ts hwf

/-- C4: in any well-formed state with distinct note ids, renaming note `A`
(titled "Foo") to "Bar" rewrites every other note `B` whose body contains
the literal marker `[[Foo]]`: afterwards `B`'s body is the full left-to-right
replacement, contains `[[Bar]]` and no longer contains `[[Foo]]`, and a
debounced write whose payload is the rewritten `B` is live for `B`'s id,
while `A`'s own save stays independent: no immediate write is issued and no
timer is scheduled under `A`'s id. -/
theorem updateNote_rename_rewrites (now : String) (s : AppState) (A B : Note)
    (hwf : WFApp s) (hnd : idsNodup s.notes)
    (hA : A ∈ s.notes) (hAt : A.title = "Foo")
    (hB : B ∈ s.notes) (hBne : ¬ B.id = A.id)
    (hct : containsSub fooPat B.content.toList = true) :
    ∃ B' ∈ (updateNote true now A.id ⟨some "Bar", none, none⟩ false s).notes,
      B'.id = B.id ∧
      B'.content.toList = replaceAll fooPat barRep B.content.toList ∧
      containsSub barRep B'.content.toList = true ∧
      containsSub fooPat B'.content.toList = false ∧
      (∃ tm ∈ (updateNote true now A.id ⟨some "Bar", none, none⟩ false s).timers,
        tm.noteId = B.id ∧ tm.payload = B') ∧
      (updateNote true now A.id ⟨some "Bar", none, none⟩ false s).writes = s.writes ∧
      timersFor (updateNote true now A.id ⟨some "Bar", none, none⟩ false s) A.id = [] := by
  have hf : s.notes.find? (fun n => n.id = A.id) = some A := find?_id_of_mem hnd hA
  have hne' : ¬ ("Bar" : String) = A.title := by rw [hAt]; decide
  have h0 : ¬ A.title = "" := by rw [hAt]; decide
  have h0' : ¬ ("Bar" : String) = "" := by decide
  rw [updateNote_title_change hf hne' h0 h0']
  have hpat : ("[[".toList ++ A.title.toList ++ "]]".toList) = fooPat := by
    rw [hAt]; decide
  have hrep : ("[[".toList ++ ("Bar" : String).toList ++ "]]".toList) = barRep := by decide
  rw [hpat, hrep]
  obtain ⟨B', hB'mem, hB'id, hres⟩ :=
    refactorGo_on_B now fooPat barRep A.id { A with title := "Bar", updatedAt := now } B hBne
      s.notes (clearFor s A.id) (WFApp_clearFor hwf A.id) hnd hB
  rw [if_pos hct] at hres
  obtain ⟨hB'eq, tm, htm, htmid, htmpl⟩ := hres
  have hbr : replaceDollar fooPat barRep [] B.content.toList
      = replaceAll fooPat barRep B.content.toList :=
    replaceDollar_no_dollar fooPat barRep (by decide) B.content.toList []
  refine ⟨B', hB'mem, hB'id, by rw [hB'eq]; exact hbr, ?_, ?_,
    ⟨tm, htm, htmid, htmpl⟩, ?_, ?_⟩
  · rw [hB'eq]
    show containsSub barRep (replaceDollar fooPat barRep [] B.content.toList) = true
    rw [hbr]
    exact containsSub_rep_replaceAll fooPat barRep (by decide) _ hct
  · rw [hB'eq]
    show containsSub fooPat (replaceDollar fooPat barRep [] B.content.toList) = false
    rw [hbr]
    refine (replaceAll_wipes fooPat barRep (by decide) (by decide) (by decide) ?_
      B.content.toList).1
    intro j hj0 hjl
    have hjl' : j < 7 := by simpa [fooPat] using hjl
    interval_cases j <;> decide
  · rw [writes_set_notes, refactorGo_writes, clearFor_writes]
  · rw [timersFor_set_notes, refactorGo_timersFor_id _ _ _ _ _ _ _ _ _
      (WFApp_clearFor hwf A.id)]
    exact timersFor_clearFor_self hwf A.id

theorem updateNote_rename_rewrites_witness :
    ∃ B' ∈ (updateNote true "t1" fooNote.id ⟨some "Bar", none, none⟩ false
        (quiescent [fooNote, linkNote])).notes,
      B'.id = linkNote.id ∧
      B'.content.toList = replaceAll fooPat barRep linkNote.content.toList ∧
      containsSub barRep B'.content.toList = true ∧
      containsSub fooPat B'.content.toList = false ∧
      (∃ tm ∈ (updateNote true "t1" fooNote.id ⟨some "Bar", none, none⟩ false
          (quiescent [fooNote, linkNote])).timers,
        tm.noteId = linkNote.id ∧ tm.payload = B') ∧
      (updateNote true "t1" fooNote.id ⟨some "Bar", none, none⟩ false
        (quiescent [fooNote, linkNote])).writes = (quiescent [fooNote, linkNote]).writes ∧
      timersFor (updateNote true "t1" fooNote.id ⟨some "Bar", none, none⟩ false
        (quiescent [fooNote, linkNote])) fooNote.id = [] :=
  updateNote_rename_rewrites "t1" (quiescent [fooNote, linkNote]) fooNote linkNote
    (by decide) (by decide) (by decide) (by decide) (by decide) (by decide) (by decide)

/-- C10: the rename link-rewrite is exact-match only.  For any rename of
note `A` from its current title to a nonempty `T'` in a well-formed state,
every other note `B` is rewritten exactly when its body contains the
marker `[[<old title>]]` character-for-character: its content becomes the
global replacement of that marker by the `GetSubstitution` expansion of
the unescaped replacement string `[[T']]` (so `$`-sequences in the new
title are substituted, as `String.prototype.replace` does) and a
debounced write is scheduled for it; otherwise `B` is left completely
unchanged with no write scheduled for it — in particular a marker that
differs from the old title only in letter case is not rewritten, even
though link extraction resolves titles case-insensitively. -/
theorem rename_rewrite_exact_match (now T' : String) (s : AppState) (A B : Note)
    (hwf : WFApp s) (hnd : idsNodup s.notes)
    (hA : A ∈ s.notes) (hB : B ∈ s.notes) (hBne : ¬ B.id = A.id)
    (hT : ¬ T' = A.title) (h0 : ¬ A.title = "") (h0' : ¬ T' = "") :
    ∃ B' ∈ (updateNote true now A.id ⟨some T', none, none⟩ false s).notes,
      B'.id = B.id ∧
      (if containsSub ("[[".toList ++ A.title.toList ++ "]]".toList) B.content.toList = true
       then
        B'.content.toList = replaceDollar ("[[".toList ++ A.title.toList ++ "]]".toList)
            ("[[".toList ++ T'.toList ++ "]]".toList) [] B.content.toList ∧
        ∃ tm ∈ (updateNote true now A.id ⟨some T', none, none⟩ false s).timers,
          tm.noteId = B.id ∧ tm.payload = B'
       else B' = B ∧
        timersFor (updateNote true now A.id ⟨some T', none, none⟩ false s) B.id
          = timersFor s B.id) := by
  have hf : s.notes.find? (fun n => n.id = A.id) = some A := find?_id_of_mem hnd hA
  rw [updateNote_title_change hf hT h0 h0']
  obtain ⟨B', hB'mem, hB'id, hres⟩ :=
    refactorGo_on_B now ("[[".toList ++ A.title.toList ++ "]]".toList)
      ("[[".toList ++ T'.toList ++ "]]".toList) A.id
      { A with title := T', updatedAt := now } B hBne
      s.notes (clearFor s A.id) (WFApp_clearFor hwf A.id) hnd hB
  refine ⟨B', hB'mem, hB'id, ?_⟩
  by_cases hct : containsSub ("[[".toList ++ A.title.toList ++ "]]".toList)
      B.content.toList = true
  · rw [if_pos hct] at hres ⊢
    obtain ⟨hB'eq, tm, htm, htmid, htmpl⟩ := hres
    exact ⟨by rw [hB'eq]; rfl, tm, htm, htmid, htmpl⟩
  · rw [if_neg hct] at hres ⊢
    refine ⟨hres.1, ?_⟩
    rw [timersFor_set_notes, hres.2]
    exact timersFor_clearFor_ne hwf hBne

theorem rename_rewrite_exact_match_witness :
    ∃ B' ∈ (updateNote true "t1" fooNote.id ⟨some "Bar", none, none⟩ false
        (quiescent [fooNote, caseNote])).notes,
      B'.id = caseNote.id ∧
      (if containsSub ("[[".toList ++ fooNote.title.toList ++ "]]".toList)
          caseNote.content.toList = true
       then
        B'.content.toList = replaceDollar ("[[".toList ++ fooNote.title.toList ++ "]]".toList)
            ("[[".toList ++ ("Bar" : String).toList ++ "]]".toList) [] caseNote.content.toList ∧
        ∃ tm ∈ (updateNote true "t1" fooNote.id ⟨some "Bar", none, none⟩ false
            (quiescent [fooNote, caseNote])).timers,
          tm.noteId = caseNote.id ∧ tm.payload = B'
       else B' = caseNote ∧
        timersFor (updateNote true "t1" fooNote.id ⟨some "Bar", none, none⟩ false
          (quiescent [fooNote, caseNote])) caseNote.id
          = timersFor (quiescent [fooNote, caseNote]) caseNote.id) :=
  rename_rewrite_exact_match "t1" "Bar" (quiescent [fooNote, caseNote]) fooNote caseNote
    (by decide) (by decide) (by decide) (by decide) (by decide) (by decide) (by decide)
    (by decide)

theorem WFApp_set_notes {s : AppState} (l : List Note) (hwf : WFApp s) :
    WFApp { s with notes := l } := hwf

theorem WFApp_updateBranch {s : AppState} (hwf : WFApp s) (i : String)
    (v b1 b2 b3 : Bool) (w p : Note) :
    WFApp (if v = true then
             if b1 = true then { clearFor s i with writes := (clearFor s i).writes ++ [w] }
             else if b2 = true then clearFor s i
             else if b3 = true then schedule (clearFor s i) i p
             else clearFor s i
           else clearFor s i) := by
  have h1 := WFApp_clearFor hwf i
  cases v
  · exact h1
  · cases b1
    · cases b2
      · cases b3
        · exact h1
        · exact WFApp_schedule_clearFor hwf i p
      · exact h1
    · exact h1

theorem updateNote_WF (v : Bool) (now i : String) (u : NoteUpdates) (f : Bool)
    (s : AppState) (hwf : WFApp s) : WFApp (updateNote v now i u f s) := by
  unfold updateNote
  have h1 : WFApp (clearFor s i) := WFApp_clearFor hwf i
  cases hfind : (clearFor s i).notes.find? (fun n => n.id = i) with
  | none => simp only [hfind]; exact h1
  | some old =>
    simp only [hfind]
    exact WFApp_set_notes _ (refactorGo_WF v now _ _ _ i _ (clearFor s i).notes _
      (WFApp_updateBranch hwf i v _ _ _ _ _))

theorem timersFor_length_le_one {s : AppState} (hwf : WFApp s) (i : String) :
    (timersFor s i).length ≤ 1 := by
  cases hl : timersFor s i with
  | nil => simp
  | cons t1 tl =>
    cases tl with
    | nil => simp
    | cons t2 rest =>
      exfalso
      have hnd : ((timersFor s i).map Timer.tid).Nodup :=
        (List.Sublist.map Timer.tid (List.filter_sublist _)).nodup hwf.2.2.1
      rw [hl] at hnd
      have htne : ¬ t1.tid = t2.tid := by
        have := List.nodup_cons.mp hnd
        intro hbad
        exact this.1 (hbad ▸ List.mem_cons_self _ _)
      have ht1 : t1 ∈ timersFor s i := by rw [hl]; exact List.mem_cons_self _ _
      have ht2 : t2 ∈ timersFor s i := by
        rw [hl]; exact List.mem_cons_of_mem _ (List.mem_cons_self _ _)
      obtain ⟨ht1m, ht1i⟩ := List.mem_filter.mp ht1
      obtain ⟨ht2m, ht2i⟩ := List.mem_filter.mp ht2
      have e1 := hwf.2.2.2.1 t1 ht1m
      have e2 := hwf.2.2.2.1 t2 ht2m
      rw [of_decide_eq_true ht1i] at e1
      rw [of_decide_eq_true ht2i] at e2
      rw [e1] at e2
      exact htne (Option.some_injective _ e2)

theorem map_update_ids (i : String) (un : Note) (hun : un.id = i) :
    ∀ l : List Note,
      (l.map (fun n => if n.id = i then un else n)).map Note.id = l.map Note.id := by
  intro l
  induction l with
  | nil => rfl
  | cons n t ih =>
    simp only [List.map_cons, ih]
    by_cases h : n.id = i
    · rw [if_pos h, hun, h]
    · rw [if_neg h]

theorem schedule_writes (s : AppState) (i : String) (p : Note) :
    (schedule s i p).writes = s.writes := rfl

/-- One content-only `updateNote` call on a well-formed state: the state
equation, preservation of well-formedness, id-uniqueness and membership
of the updated note, an unchanged write log, and the single fresh
debounced timer now pending for the note's id. -/
theorem updateNote_content_step (now c i : String) {s : AppState} {a : Note}
    (hwf : WFApp s) (hnd : idsNodup s.notes) (ha : a ∈ s.notes) (hid : a.id = i)
    (hne : ¬ c = a.content) :
    updateNote true now i ⟨none, some c, none⟩ false s =
      { schedule (clearFor s i) i { a with content := c, updatedAt := now } with
        notes := s.notes.map (fun n =>
          if n.id = i then { a with content := c, updatedAt := now } else n) } ∧
    WFApp (updateNote true now i ⟨none, some c, none⟩ false s) ∧
    idsNodup (updateNote true now i ⟨none, some c, none⟩ false s).notes ∧
    { a with content := c, updatedAt := now } ∈
      (updateNote true now i ⟨none, some c, none⟩ false s).notes ∧
    (updateNote true now i ⟨none, some c, none⟩ false s).writes = s.writes ∧
    timersFor (updateNote true now i ⟨none, some c, none⟩ false s) i
      = [⟨(clearFor s i).nextT, i, { a with content := c, updatedAt := now }⟩] := by
  subst hid
  have hf : s.notes.find? (fun n => n.id = a.id) = some a := find?_id_of_mem hnd ha
  have e := @updateNote_content_change now a.id c s a hf hne
  refine ⟨e, updateNote_WF true now a.id ⟨none, some c, none⟩ false s hwf, ?_, ?_, ?_, ?_⟩
  · rw [e]
    show idsNodup (s.notes.map
      (fun n => if n.id = a.id then { a with content := c, updatedAt := now } else n))
    unfold idsNodup
    rw [map_update_ids a.id { a with content := c, updatedAt := now } rfl]
    exact hnd
  · rw [e]
    show ({ a with content := c, updatedAt := now } : Note) ∈ s.notes.map
      (fun n => if n.id = a.id then { a with content := c, updatedAt := now } else n)
    have h'' : (if a.id = a.id then ({ a with content := c, updatedAt := now } : Note) else a)
        = { a with content := c, updatedAt := now } := if_pos rfl
    exact List.mem_map.mpr ⟨a, ha, h''⟩
  · rw [e, writes_set_notes, schedule_writes, clearFor_writes]
  · rw [e, timersFor_set_notes, timersFor_schedule_self, timersFor_clearFor_self hwf]
    rfl

/-- C8: per-note debounced writes are last-scheduled-wins.  Every
`updateNote` call preserves the timer-state invariant (each scheduled
write first cancels the pending one recorded for the same note id), so in
any well-formed state at most one pending debounced write exists per note
id; consequently three rapid content mutations of the same note leave
exactly one pending write for it, whose payload carries the final
content, while the immediate write log is untouched. -/
theorem debounce_last_scheduled_wins (now1 now2 now3 c1 c2 c3 : String)
    (s : AppState) (a : Note)
    (hwf : WFApp s) (hnd : idsNodup s.notes) (ha : a ∈ s.notes)
    (h1 : ¬ c1 = a.content) (h2 : ¬ c2 = c1) (h3 : ¬ c3 = c2) :
    (∀ (v f : Bool) (now i : String) (u : NoteUpdates) (t : AppState),
        WFApp t → WFApp (updateNote v now i u f t)) ∧
    (∀ (t : AppState) (i : String), WFApp t → (timersFor t i).length ≤ 1) ∧
    (∃ tid, timersFor
        (updateNote true now3 a.id ⟨none, some c3, none⟩ false
          (updateNote true now2 a.id ⟨none, some c2, none⟩ false
            (updateNote true now1 a.id ⟨none, some c1, none⟩ false s))) a.id
        = [⟨tid, a.id, { a with content := c3, updatedAt := now3 }⟩]) ∧
    (updateNote true now3 a.id ⟨none, some c3, none⟩ false
        (updateNote true now2 a.id ⟨none, some c2, none⟩ false
          (updateNote true now1 a.id ⟨none, some c1, none⟩ false s))).writes = s.writes := by
  obtain ⟨e1, hwf1, hnd1, hmem1, hwr1, ht1⟩ :=
    updateNote_content_step now1 c1 a.id hwf hnd ha rfl h1
  have h2' : ¬ c2 = ({ a with content := c1, updatedAt := now1 } : Note).content := h2
  obtain ⟨e2, hwf2, hnd2, hmem2, hwr2, ht2⟩ :=
    updateNote_content_step now2 c2 a.id hwf1 hnd1 hmem1 rfl h2'
  have h3' : ¬ c3 = ({ { a with content := c1, updatedAt := now1 } with
      content := c2, updatedAt := now2 } : Note).content := h3
  obtain ⟨e3, hwf3, hnd3, hmem3, hwr3, ht3⟩ :=
    updateNote_content_step now3 c3 a.id hwf2 hnd2 hmem2 rfl h3'
  refine ⟨fun v f now i u t ht => updateNote_WF v now i u f t ht,
          fun t i ht => timersFor_length_le_one ht i, ?_, ?_⟩
  · exact ⟨_, ht3⟩
  · rw [hwr3, hwr2, hwr1]

theorem debounce_last_scheduled_wins_witness :
    (∀ (v f : Bool) (now i : String) (u : NoteUpdates) (t : AppState),
        WFApp t → WFApp (updateNote v now i u f t)) ∧
    (∀ (t : AppState) (i : String), WFApp t → (timersFor t i).length ≤ 1) ∧
    (∃ tid, timersFor
        (updateNote true "t3" fooNote.id ⟨none, some "z", none⟩ false
          (updateNote true "t2" fooNote.id ⟨none, some "y", none⟩ false
            (updateNote true "t1" fooNote.id ⟨none, some "x", none⟩ false
              (quiescent [fooNote])))) fooNote.id
        = [⟨tid, fooNote.id, { fooNote with content := "z", updatedAt := "t3" }⟩]) ∧
    (updateNote true "t3" fooNote.id ⟨none, some "z", none⟩ false
        (updateNote true "t2" fooNote.id ⟨none, some "y", none⟩ false
          (updateNote true "t1" fooNote.id ⟨none, some "x", none⟩ false
            (quiescent [fooNote])))).writes = (quiescent [fooNote]).writes :=
  debounce_last_scheduled_wins "t1" "t2" "t3" "x" "y" "z" (quiescent [fooNote]) fooNote
    (by decide) (by decide) (by decide) (by decide) (by decide) (by decide)

theorem splitFirst_cons_skip {pat : List Char} {c : Char} {t : List Char}
    (h : isPref pat (c :: t) = false) :
    splitFirst pat (c :: t) = (splitFirst pat t).map (fun q => (c :: q.1, q.2)) := by
  rw [splitFirst, h]
  rfl

theorem isPref_nl5_cons (d : Char) (hd : ¬ '-' = d) (t : List Char) :
    isPref "\n---\n".toList ('\n' :: d :: t) = false := by
  show isPref ('\n' :: '-' :: '-' :: '-' :: '\n' :: []) ('\n' :: d :: t) = false
  simp [isPref, hd]

theorem splitFirst_chunk : ∀ {B : List Char}, '\n' ∉ B → ∀ (rest : List Char),
    splitFirst "\n---\n".toList (B ++ rest)
      = (splitFirst "\n---\n".toList rest).map (fun q => (B ++ q.1, q.2)) := by
  intro B
  induction B with
  | nil =>
    intro _ rest
    rw [List.nil_append]
    cases splitFirst "\n---\n".toList rest <;> rfl
  | cons c B' ih =>
    intro hB rest
    have hB' : ¬ '\n' = c ∧ '\n' ∉ B' := by
      simpa [List.mem_cons, not_or] using hB
    have hskip : isPref "\n---\n".toList (c :: (B' ++ rest)) = false := by
      show isPref ('\n' :: '-' :: '-' :: '-' :: '\n' :: []) (c :: (B' ++ rest)) = false
      simp [isPref, hB'.1]
    rw [List.cons_append, splitFirst_cons_skip hskip, ih hB'.2 rest]
    cases splitFirst "\n---\n".toList rest <;> rfl

theorem splitFirst_self_nl (C : List Char) :
    splitFirst "\n---\n".toList ("\n---\n".toList ++ C) = some ([], C) := rfl

theorem splitFirst_skip_key {K : List Char} {d : Char} {K' : List Char}
    (hK : K = d :: K') (hd : ¬ '-' = d) (X : List Char) :
    splitFirst "\n---\n".toList ('\n' :: (K ++ X))
      = (splitFirst "\n---\n".toList (K ++ X)).map (fun q => ('\n' :: q.1, q.2)) := by
  subst hK
  exact splitFirst_cons_skip (isPref_nl5_cons d hd (K' ++ X))

theorem splitOnChar_ne_nil (sep : Char) : ∀ s, splitOnChar sep s ≠ [] := by
  intro s
  cases s with
  | nil => simp [splitOnChar]
  | cons c t =>
    rw [splitOnChar]
    by_cases hc : c = sep
    · rw [if_pos hc]
      simp
    · rw [if_neg hc]
      cases splitOnChar sep t <;> simp

theorem splitOnChar_cons_sep (sep : Char) (t : List Char) :
    splitOnChar sep (sep :: t) = [] :: splitOnChar sep t := by
  rw [splitOnChar, if_pos rfl]

theorem splitOnChar_last {sep : Char} : ∀ {B : List Char}, sep ∉ B →
    splitOnChar sep B = [B] := by
  intro B
  induction B with
  | nil => intro _; rfl
  | cons c B' ih =>
    intro hB
    have hB' : ¬ sep = c ∧ sep ∉ B' := by
      simpa [List.mem_cons, not_or] using hB
    rw [splitOnChar, if_neg (fun h => hB'.1 h.symm), ih hB'.2]

theorem splitOnChar_sep_append {sep : Char} : ∀ {B : List Char}, sep ∉ B →
    ∀ (rest : List Char),
      splitOnChar sep (B ++ sep :: rest) = B :: splitOnChar sep rest := by
  intro B
  induction B with
  | nil =>
    intro _ rest
    rw [List.nil_append]
    exact splitOnChar_cons_sep sep rest
  | cons c B' ih =>
    intro hB rest
    have hB' : ¬ sep = c ∧ sep ∉ B' := by
      simpa [List.mem_cons, not_or] using hB
    rw [List.cons_append, splitOnChar, if_neg (fun h => hB'.1 h.symm), ih hB'.2 rest]

theorem splitOnChar_prepend {sep : Char} : ∀ {B : List Char}, sep ∉ B →
    ∀ (X : List Char),
      splitOnChar sep (B ++ X)
        = (B ++ (splitOnChar sep X).headI) :: (splitOnChar sep X).tail := by
  intro B
  induction B with
  | nil =>
    intro _ X
    rw [List.nil_append, List.nil_append]
    cases hX : splitOnChar sep X with
    | nil => exact absurd hX (splitOnChar_ne_nil sep X)
    | cons p ps => rfl
  | cons c B' ih =>
    intro hB X
    have hB' : ¬ sep = c ∧ sep ∉ B' := by
      simpa [List.mem_cons, not_or] using hB
    rw [List.cons_append, splitOnChar, if_neg (fun h => hB'.1 h.symm), ih hB'.2 X,
      List.cons_append]

theorem joinChar_cons {sep : Char} (p : List Char) {X : List (List Char)} (hX : X ≠ []) :
    joinChar sep (p :: X) = p ++ sep :: joinChar sep X := by
  cases X with
  | nil => exact absurd rfl hX
  | cons x xs => rfl

theorem joinChar_splitOnChar (sep : Char) : ∀ s, joinChar sep (splitOnChar sep s) = s := by
  intro s
  induction s with
  | nil => rfl
  | cons c t ih =>
    rw [splitOnChar]
    by_cases hc : c = sep
    · rw [if_pos hc, joinChar_cons [] (splitOnChar_ne_nil sep t), ih, hc]
      rfl
    · rw [if_neg hc]
      cases hsp : splitOnChar sep t with
      | nil => exact absurd hsp (splitOnChar_ne_nil sep t)
      | cons p ps =>
        rw [hsp] at ih
        cases ps with
        | nil => exact congrArg (List.cons c) ih
        | cons q qs =>
          show (c :: p) ++ (sep :: joinChar sep (q :: qs)) = c :: t
          rw [List.cons_append]
          exact congrArg (List.cons c) ih

theorem trimJS_space_cons {v : List Char} (h : trimJS v = v) : trimJS (' ' :: v) = v := by
  unfold trimJS at h ⊢
  rw [List.dropWhile_cons, if_pos (by decide)]
  exact h

theorem yamlAssign_line (acc : List (List Char × YamlVal)) (key val : List Char)
    (hkey : ¬ key = []) (hknc : ':' ∉ key) (hktrim : trimJS key = key)
    (hvtrim : trimJS val = val) :
    yamlAssign acc (key ++ (':' :: ' ' :: val)) =
      (key, if val = "true".toList then .bool true
            else if val = "false".toList then .bool false
            else if !(val = "null".toList : Bool) then .str val
            else .null) :: acc := by
  unfold yamlAssign
  rw [splitOnChar_sep_append hknc (' ' :: val)]
  simp only [if_neg hkey, joinChar_splitOnChar, trimJS_space_cons hvtrim, hktrim]

theorem keyline_split {K Ks : List Char} (v : List Char) (h : K = Ks ++ (':' :: ' ' :: [])) :
    K ++ v = Ks ++ (':' :: ' ' :: v) := by
  rw [h, List.append_assoc]
  rfl

theorem splitFirst_yaml (v1 v2 v3 v4 v5 v6 C : List Char)
    (h1 : '\n' ∉ v1) (h2 : '\n' ∉ v2) (h3 : '\n' ∉ v3) (h4 : '\n' ∉ v4)
    (h5 : '\n' ∉ v5) (h6 : '\n' ∉ v6) :
    splitFirst "\n---\n".toList
      ("id: ".toList ++ (v1 ++ ('\n' :: ("title: ".toList ++ (v2 ++ ('\n' :: ("created: ".toList ++ (v3 ++ ('\n' :: ("updated: ".toList ++ (v4 ++ ('\n' :: ("parentId: ".toList ++ (v5 ++ ('\n' :: ("isFavorite: ".toList ++ (v6 ++ ("\n---\n".toList ++ C))))))))))))))))))
      = some (("id: ".toList ++ (v1 ++ ('\n' :: ("title: ".toList ++ (v2 ++ ('\n' :: ("created: ".toList ++ (v3 ++ ('\n' :: ("updated: ".toList ++ (v4 ++ ('\n' :: ("parentId: ".toList ++ (v5 ++ ('\n' :: ("isFavorite: ".toList ++ v6)))))))))))))))), C) := by
  have kid : '\n' ∉ "id: ".toList := by decide
  have kti : '\n' ∉ "title: ".toList := by decide
  have kcr : '\n' ∉ "created: ".toList := by decide
  have kup : '\n' ∉ "updated: ".toList := by decide
  have kpa : '\n' ∉ "parentId: ".toList := by decide
  have kfa : '\n' ∉ "isFavorite: ".toList := by decide
  have eti : "title: ".toList = 't' :: "itle: ".toList := by decide
  have ecr : "created: ".toList = 'c' :: "reated: ".toList := by decide
  have eup : "updated: ".toList = 'u' :: "pdated: ".toList := by decide
  have epa : "parentId: ".toList = 'p' :: "arentId: ".toList := by decide
  have efa : "isFavorite: ".toList = 'i' :: "sFavorite: ".toList := by decide
  rw [splitFirst_chunk kid, splitFirst_chunk h1,
      splitFirst_skip_key eti (by decide), splitFirst_chunk kti, splitFirst_chunk h2,
      splitFirst_skip_key ecr (by decide), splitFirst_chunk kcr, splitFirst_chunk h3,
      splitFirst_skip_key eup (by decide), splitFirst_chunk kup, splitFirst_chunk h4,
      splitFirst_skip_key epa (by decide), splitFirst_chunk kpa, splitFirst_chunk h5,
      splitFirst_skip_key efa (by decide), splitFirst_chunk kfa, splitFirst_chunk h6,
      splitFirst_self_nl]
  simp [List.append_nil]

theorem splitOnChar_yaml (n : Note)
    (h1 : '\n' ∉ n.id.toList) (h2 : '\n' ∉ n.title.toList)
    (h3 : '\n' ∉ n.createdAt.toList) (h4 : '\n' ∉ n.updatedAt.toList)
    (h5 : '\n' ∉ parentLit n.parentId) (h6 : '\n' ∉ favLit n.isFavorite) :
    splitOnChar '\n' (yamlOf n) =
      ["id: ".toList ++ n.id.toList,
       "title: ".toList ++ n.title.toList,
       "created: ".toList ++ n.createdAt.toList,
       "updated: ".toList ++ n.updatedAt.toList,
       "parentId: ".toList ++ parentLit n.parentId,
       "isFavorite: ".toList ++ favLit n.isFavorite] := by
  have kid : '\n' ∉ "id: ".toList := by decide
  have kti : '\n' ∉ "title: ".toList := by decide
  have kcr : '\n' ∉ "created: ".toList := by decide
  have kup : '\n' ∉ "updated: ".toList := by decide
  have kpa : '\n' ∉ "parentId: ".toList := by decide
  have kfa : '\n' ∉ "isFavorite: ".toList := by decide
  have l1 : '\n' ∉ "id: ".toList ++ n.id.toList :=
    fun h => (List.mem_append.mp h).elim (fun h => kid h) (fun h => h1 h)
  have l2 : '\n' ∉ "title: ".toList ++ n.title.toList :=
    fun h => (List.mem_append.mp h).elim (fun h => kti h) (fun h => h2 h)
  have l3 : '\n' ∉ "created: ".toList ++ n.createdAt.toList :=
    fun h => (List.mem_append.mp h).elim (fun h => kcr h) (fun h => h3 h)
  have l4 : '\n' ∉ "updated: ".toList ++ n.updatedAt.toList :=
    fun h => (List.mem_append.mp h).elim (fun h => kup h) (fun h => h4 h)
  have l5 : '\n' ∉ "parentId: ".toList ++ parentLit n.parentId :=
    fun h => (List.mem_append.mp h).elim (fun h => kpa h) (fun h => h5 h)
  have l6 : '\n' ∉ "isFavorite: ".toList ++ favLit n.isFavorite :=
    fun h => (List.mem_append.mp h).elim (fun h => kfa h) (fun h => h6 h)
  unfold yamlOf
  rw [splitOnChar_prepend l1, splitOnChar_cons_sep,
      splitOnChar_prepend l2, splitOnChar_cons_sep,
      splitOnChar_prepend l3, splitOnChar_cons_sep,
      splitOnChar_prepend l4, splitOnChar_cons_sep,
      splitOnChar_prepend l5, splitOnChar_cons_sep,
      splitOnChar_last l6]
  simp [List.headI, List.append_nil]

/-- C2 (amended): the frontmatter codec round-trips every note whose
metadata fields are hygienic for the ad hoc YAML format: each of
`id`/`title`/`createdAt`/`updatedAt` (and the parent id, when present and
nonempty) contains no newline, survives `trim` unchanged and is not one of
the coerced literals `true`/`false`/`null`.  Then parsing the serialized
note recovers every encoded field — the four string fields as string
values, the parent as its string (or `null` when absent) and the favorite
flag as a boolean — and the body verbatim; the body itself is
unrestricted, because the lazy block match always splits at the block
delimiter the serializer wrote. -/
theorem frontmatter_roundtrip (n : Note)
    (hid : fieldOk n.id) (hti : fieldOk n.title)
    (hcr : fieldOk n.createdAt) (hup : fieldOk n.updatedAt)
    (hpar : n.parentId = none ∨ ∃ p, n.parentId = some p ∧ ¬ p = "" ∧ fieldOk p) :
    (parseFrontmatter (stringifyFrontmatter n)).1 =
      { id := some (.str n.id.toList), title := some (.str n.title.toList),
        createdAt := some (.str n.createdAt.toList),
        updatedAt := some (.str n.updatedAt.toList),
        parentId := some (match n.parentId with | none => YamlVal.null | some p => YamlVal.str p.toList),
        isFavorite := some (.bool n.isFavorite) } ∧
    (parseFrontmatter (stringifyFrontmatter n)).2 = n.content.toList := by
  have h5 : '\n' ∉ parentLit n.parentId := by
    rcases hpar with h | ⟨p, hp, hpne, hpok⟩
    · rw [h]; decide
    · rw [hp]
      show '\n' ∉ (if p = "" then "null".toList else p.toList)
      rw [if_neg hpne]
      exact hpok.1
  have hfl : '\n' ∉ favLit n.isFavorite := by
    cases n.isFavorite <;> decide
  have hptrim : trimJS (parentLit n.parentId) = parentLit n.parentId := by
    rcases hpar with h | ⟨p, hp, hpne, hpok⟩
    · rw [h]; decide
    · rw [hp]
      show trimJS (if p = "" then "null".toList else p.toList)
        = (if p = "" then "null".toList else p.toList)
      rw [if_neg hpne]
      exact hpok.2.1
  have hftrim : trimJS (favLit n.isFavorite) = favLit n.isFavorite := by
    cases n.isFavorite <;> decide
  have hvid : (if n.id.toList = "true".toList then YamlVal.bool true
      else if n.id.toList = "false".toList then YamlVal.bool false
      else if !(n.id.toList = "null".toList : Bool) then YamlVal.str n.id.toList
      else YamlVal.null) = YamlVal.str n.id.toList := by
    have hnull : (!(n.id.toList = "null".toList : Bool)) = true := by
      rw [decide_eq_false hid.2.2.2.2]
      rfl
    rw [if_neg hid.2.2.1, if_neg hid.2.2.2.1, if_pos hnull]
  have hvti : (if n.title.toList = "true".toList then YamlVal.bool true
      else if n.title.toList = "false".toList then YamlVal.bool false
      else if !(n.title.toList = "null".toList : Bool) then YamlVal.str n.title.toList
      else YamlVal.null) = YamlVal.str n.title.toList := by
    have hnull : (!(n.title.toList = "null".toList : Bool)) = true := by
      rw [decide_eq_false hti.2.2.2.2]
      rfl
    rw [if_neg hti.2.2.1, if_neg hti.2.2.2.1, if_pos hnull]
  have hvcr : (if n.createdAt.toList = "true".toList then YamlVal.bool true
      else if n.createdAt.toList = "false".toList then YamlVal.bool false
      else if !(n.createdAt.toList = "null".toList : Bool) then YamlVal.str n.createdAt.toList
      else YamlVal.null) = YamlVal.str n.createdAt.toList := by
    have hnull : (!(n.createdAt.toList = "null".toList : Bool)) = true := by
      rw [decide_eq_false hcr.2.2.2.2]
      rfl
    rw [if_neg hcr.2.2.1, if_neg hcr.2.2.2.1, if_pos hnull]
  have hvup : (if n.updatedAt.toList = "true".toList then YamlVal.bool true
      else if n.updatedAt.toList = "false".toList then YamlVal.bool false
      else if !(n.updatedAt.toList = "null".toList : Bool) then YamlVal.str n.updatedAt.toList
      else YamlVal.null) = YamlVal.str n.updatedAt.toList := by
    have hnull : (!(n.updatedAt.toList = "null".toList : Bool)) = true := by
      rw [decide_eq_false hup.2.2.2.2]
      rfl
    rw [if_neg hup.2.2.1, if_neg hup.2.2.2.1, if_pos hnull]
  have hvp : (if parentLit n.parentId = "true".toList then YamlVal.bool true
      else if parentLit n.parentId = "false".toList then YamlVal.bool false
      else if !(parentLit n.parentId = "null".toList : Bool) then
        YamlVal.str (parentLit n.parentId)
      else YamlVal.null) = (match n.parentId with | none => YamlVal.null | some p => YamlVal.str p.toList) := by
    rcases hpar with h | ⟨p, hp, hpne, hpok⟩
    · rw [h]; decide
    · rw [hp]
      have e : parentLit (some p) = p.toList := by
        show (if p = "" then "null".toList else p.toList) = p.toList
        rw [if_neg hpne]
      rw [e]
      have hnull : (!(p.toList = "null".toList : Bool)) = true := by
        rw [decide_eq_false hpok.2.2.2.2]
        rfl
      rw [if_neg hpok.2.2.1, if_neg hpok.2.2.2.1, if_pos hnull]
  have hvf : (if favLit n.isFavorite = "true".toList then YamlVal.bool true
      else if favLit n.isFavorite = "false".toList then YamlVal.bool false
      else if !(favLit n.isFavorite = "null".toList : Bool) then
        YamlVal.str (favLit n.isFavorite)
      else YamlVal.null) = YamlVal.bool n.isFavorite := by
    cases n.isFavorite <;> decide
  have hsplit : splitFirst "\n---\n".toList
      (yamlOf n ++ ("\n---\n".toList ++ n.content.toList))
      = some (yamlOf n, n.content.toList) := by
    have harg : yamlOf n ++ ("\n---\n".toList ++ n.content.toList) =
        ("id: ".toList ++ (n.id.toList ++ ('\n' :: ("title: ".toList ++ (n.title.toList ++ ('\n' :: ("created: ".toList ++ (n.createdAt.toList ++ ('\n' :: ("updated: ".toList ++ (n.updatedAt.toList ++ ('\n' :: ("parentId: ".toList ++ (parentLit n.parentId ++ ('\n' :: ("isFavorite: ".toList ++ (favLit n.isFavorite ++ ("\n---\n".toList ++ n.content.toList)))))))))))))))))) := by
      simp [yamlOf]
    rw [harg, splitFirst_yaml n.id.toList n.title.toList n.createdAt.toList
      n.updatedAt.toList (parentLit n.parentId) (favLit n.isFavorite) n.content.toList
      hid.1 hti.1 hcr.1 hup.1 h5 hfl]
    have hyback : ("id: ".toList ++ (n.id.toList ++ ('\n' :: ("title: ".toList ++ (n.title.toList ++ ('\n' :: ("created: ".toList ++ (n.createdAt.toList ++ ('\n' :: ("updated: ".toList ++ (n.updatedAt.toList ++ ('\n' :: ("parentId: ".toList ++ (parentLit n.parentId ++ ('\n' :: ("isFavorite: ".toList ++ favLit n.isFavorite)))))))))))))))) = yamlOf n := by
      simp [yamlOf]
    rw [hyback]
  have hm : (splitOnChar '\n' (yamlOf n)).foldl yamlAssign [] =
      [("isFavorite".toList, YamlVal.bool n.isFavorite),
       ("parentId".toList, (match n.parentId with | none => YamlVal.null | some p => YamlVal.str p.toList)),
       ("updated".toList, YamlVal.str n.updatedAt.toList),
       ("created".toList, YamlVal.str n.createdAt.toList),
       ("title".toList, YamlVal.str n.title.toList),
       ("id".toList, YamlVal.str n.id.toList)] := by
    rw [splitOnChar_yaml n hid.1 hti.1 hcr.1 hup.1 h5 hfl,
        @keyline_split "id: ".toList "id".toList n.id.toList (by decide),
        @keyline_split "title: ".toList "title".toList n.title.toList (by decide),
        @keyline_split "created: ".toList "created".toList n.createdAt.toList (by decide),
        @keyline_split "updated: ".toList "updated".toList n.updatedAt.toList (by decide),
        @keyline_split "parentId: ".toList "parentId".toList (parentLit n.parentId) (by decide),
        @keyline_split "isFavorite: ".toList "isFavorite".toList (favLit n.isFavorite) (by decide)]
    simp only [List.foldl_cons, List.foldl_nil]
    rw [yamlAssign_line [] "id".toList n.id.toList (by decide) (by decide) (by decide) hid.2.1,
        yamlAssign_line _ "title".toList n.title.toList (by decide) (by decide) (by decide) hti.2.1,
        yamlAssign_line _ "created".toList n.createdAt.toList (by decide) (by decide) (by decide) hcr.2.1,
        yamlAssign_line _ "updated".toList n.updatedAt.toList (by decide) (by decide) (by decide) hup.2.1,
        yamlAssign_line _ "parentId".toList (parentLit n.parentId) (by decide) (by decide) (by decide) hptrim,
        yamlAssign_line _ "isFavorite".toList (favLit n.isFavorite) (by decide) (by decide) (by decide) hftrim]
    rw [hvid, hvti, hvcr, hvup, hvp, hvf]
  have htext : stringifyFrontmatter n =
      "---\n".toList ++ (yamlOf n ++ ("\n---\n".toList ++ n.content.toList)) := by
    unfold stringifyFrontmatter
    simp
  have hpf : parseFrontmatter (stringifyFrontmatter n) =
      ({ id := some (.str n.id.toList), title := some (.str n.title.toList),
         createdAt := some (.str n.createdAt.toList),
         updatedAt := some (.str n.updatedAt.toList),
         parentId := some (match n.parentId with | none => YamlVal.null | some p => YamlVal.str p.toList),
         isFavorite := some (.bool n.isFavorite) }, n.content.toList) := by
    unfold parseFrontmatter
    rw [htext, if_pos (isPref_append_self "---\n".toList _),
        (by decide : (4 : ℕ) = ("---\n".toList).length), List.drop_left, hsplit]
    show (({ id := metaLookup ((splitOnChar '\n' (yamlOf n)).foldl yamlAssign []) "id".toList,
             title := metaLookup ((splitOnChar '\n' (yamlOf n)).foldl yamlAssign []) "title".toList,
             createdAt := metaLookup ((splitOnChar '\n' (yamlOf n)).foldl yamlAssign []) "created".toList,
             updatedAt := metaLookup ((splitOnChar '\n' (yamlOf n)).foldl yamlAssign []) "updated".toList,
             parentId := metaLookup ((splitOnChar '\n' (yamlOf n)).foldl yamlAssign []) "parentId".toList,
             isFavorite := metaLookup ((splitOnChar '\n' (yamlOf n)).foldl yamlAssign []) "isFavorite".toList } : FrontMeta),
          n.content.toList) = _
    rw [hm]
    rfl
  exact ⟨by rw [hpf], by rw [hpf]⟩

set_option maxRecDepth 4096 in
theorem frontmatter_roundtrip_cex :
    (parseFrontmatter (stringifyFrontmatter boolTitleNote)).1.title
      = some (.bool true) ∧
    ¬ (parseFrontmatter (stringifyFrontmatter boolTitleNote)).1.title
      = some (.str boolTitleNote.title.toList) ∧
    (parseFrontmatter (stringifyFrontmatter boolTitleNote)).2
      = boolTitleNote.content.toList := by decide

theorem frontmatter_roundtrip_witness :
    (parseFrontmatter (stringifyFrontmatter tameNote)).1 =
      { id := some (.str tameNote.id.toList), title := some (.str tameNote.title.toList),
        createdAt := some (.str tameNote.createdAt.toList),
        updatedAt := some (.str tameNote.updatedAt.toList),
        parentId := some (match tameNote.parentId with
                          | none => YamlVal.null
                          | some p => YamlVal.str p.toList),
        isFavorite := some (.bool tameNote.isFavorite) } ∧
    (parseFrontmatter (stringifyFrontmatter tameNote)).2 = tameNote.content.toList :=
  frontmatter_roundtrip tameNote (by decide) (by decide) (by decide) (by decide)
    (Or.inr ⟨"p0", rfl, by decide, by decide⟩)
